import Mathlib

/-!
Verification development for the news-pulse-bot pipeline
(collection → deduplication → verification).

The TypeScript sources are shallowly embedded as executable Lean
definitions.  JavaScript strings are modelled as Lean `String`
(lists of Unicode scalar values); JavaScript numbers that matter here
(timestamps, JSON numerics) are modelled exactly as integers or as
mantissa/decimal-exponent pairs rather than as IEEE doubles — no claim
under verification depends on floating-point rounding.  The SHA-256
digest from `helpers.ts` (`hashString`) is kept as an explicit function
parameter everywhere it is used: no claim depends on the value of the
digest, only on it being a deterministic function of its input.
-/

/-! ### JS string primitives (src/utils/helpers.ts)

`normalizeTitle(title)` is
`title.toLowerCase().trim().replace(/\s+/g, ' ')`.
We model the JavaScript whitespace class (`\s`, also used by `trim`)
by its set of code points, and `toLowerCase` restricted to ASCII
letters (the only case mapping exercised by this code base).
-/

/-- Code points of the JavaScript `\s` / `String.prototype.trim`
whitespace class. -/
def jsWsCodes : List Nat :=
  [32, 9, 10, 13, 11, 12, 160, 0x1680, 0x2000, 0x2001, 0x2002, 0x2003,
   0x2004, 0x2005, 0x2006, 0x2007, 0x2008, 0x2009, 0x200a, 0x2028,
   0x2029, 0x202f, 0x205f, 0x3000, 0xfeff]

/-- Is `c` JavaScript whitespace? -/
def isJsWs (c : Char) : Bool := jsWsCodes.contains c.toNat

/-- The ASCII case-mapping table used to model
`String.prototype.toLowerCase`. -/
def lowerPairs : List (Char × Char) :=
  [('A','a'),('B','b'),('C','c'),('D','d'),('E','e'),('F','f'),('G','g'),
   ('H','h'),('I','i'),('J','j'),('K','k'),('L','l'),('M','m'),('N','n'),
   ('O','o'),('P','p'),('Q','q'),('R','r'),('S','s'),('T','t'),('U','u'),
   ('V','v'),('W','w'),('X','x'),('Y','y'),('Z','z')]

/-- One character of `toLowerCase` (ASCII letters; every other character
is untouched, which is all this code base exercises). -/
def jsToLowerChar (c : Char) : Char :=
  match lowerPairs.find? (fun p => p.1 == c) with
  | some p => p.2
  | none => c

/-- `s.toLowerCase()`. -/
def jsToLower (s : String) : String := String.mk (s.data.map jsToLowerChar)

/-- Leading-whitespace removal (one side of `trim`). -/
def dropWs (l : List Char) : List Char := l.dropWhile isJsWs

/-- `s.trim()` on the character list: drop JS whitespace from both ends. -/
def jsTrim (l : List Char) : List Char :=
  ((dropWs l).reverse.dropWhile isJsWs).reverse

/-- `replace(/\s+/g, ' ')`: every maximal whitespace run becomes one
space.  `prev` records whether we are inside a run already replaced. -/
def collapseGo : Bool → List Char → List Char
  | _, [] => []
  | prev, c :: cs =>
    if isJsWs c then
      if prev then collapseGo true cs else ' ' :: collapseGo true cs
    else c :: collapseGo false cs

/-- `replace(/\s+/g, ' ')` entry point. -/
def collapseWs (l : List Char) : List Char := collapseGo false l

/-- `normalizeTitle` from src/utils/helpers.ts:
`title.toLowerCase().trim().replace(/\s+/g, ' ')`. -/
def normalizeTitle (title : String) : String :=
  String.mk (collapseWs (jsTrim (title.data.map jsToLowerChar)))

/-- Split a character list into its maximal whitespace-free words
(`cur` is the reversed word being accumulated).  Used to characterise
`normalizeTitle`: two titles differ only by casing/whitespace exactly
when their lowercased word lists agree. -/
def splitGo : List Char → List Char → List (List Char)
  | cur, [] => if cur.isEmpty then [] else [cur.reverse]
  | cur, c :: cs =>
    if isJsWs c then
      if cur.isEmpty then splitGo [] cs else cur.reverse :: splitGo [] cs
    else splitGo (c :: cur) cs

/-- The whitespace-separated words of a character list. -/
def splitWsWords (l : List Char) : List (List Char) := splitGo [] l

/-- Join words with single spaces. -/
def joinWords : List (List Char) → List Char
  | [] => []
  | [w] => w
  | w :: ws => w ++ ' ' :: joinWords ws

/-- The lowercased word sequence of a string: the canonical skeleton
that `normalizeTitle` exposes. -/
def lowerWords (s : String) : List (List Char) :=
  splitWsWords (s.data.map jsToLowerChar)

/-- `hay.includes(sub)` needs: is `pre` a leading segment of `l`? -/
def leadSeg : List Char → List Char → Bool
  | [], _ => true
  | _ :: _, [] => false
  | a :: as, b :: bs => a == b && leadSeg as bs

/-- Substring occurrence on character lists. -/
def listContainsSub : List Char → List Char → Bool
  | hay, sub =>
    if leadSeg sub hay then true
    else
      match hay with
      | [] => false
      | _ :: t => listContainsSub t sub

/-- JavaScript `s.includes(sub)`. -/
def jsIncludes (s sub : String) : Bool := listContainsSub s.data sub.data

/-! ### URL model (src/utils/helpers.ts, `normalizeUrl`)

`normalizeUrl` is `new URL(url)` + `searchParams.delete` of the five
`utm_*` tracking parameters + `toString()`, returning the input
unchanged when `new URL` throws.  The WHATWG parser/serializer is
modelled structurally: `scheme ":" core [ "?" query ] [ "#" fragment ]`,
with the query held as decoded `(name, value)` pairs exactly as
`URLSearchParams` holds it, and re-serialized in
application/x-www-form-urlencoded form (which is what `toString`
produces once the search parameters have been touched; when deletion
leaves the list empty the `?` is dropped, as in the URL standard).
Host-case normalization, default-port elision and component
percent-encoding of the WHATWG serializer are not represented; none of
the claims verified below depend on them. -/

/-- Split a character list at the first occurrence of `target`,
returning the pieces before and after it. -/
def splitAtFirstChar (target : Char) : List Char → Option (List Char × List Char)
  | [] => none
  | c :: cs =>
    if c == target then some ([], cs)
    else (splitAtFirstChar target cs).map (fun p => (c :: p.1, p.2))

/-- ASCII letter? (scheme start character). -/
def isAsciiAlpha (c : Char) : Bool :=
  (65 ≤ c.toNat && c.toNat ≤ 90) || (97 ≤ c.toNat && c.toNat ≤ 122)

/-- Characters allowed in a URL scheme after the first. -/
def isSchemeChar (c : Char) : Bool :=
  isAsciiAlpha c || (48 ≤ c.toNat && c.toNat ≤ 57) || c == '+' || c == '-' || c == '.'

/-- Hexadecimal digit value. -/
def hexDigitVal? (c : Char) : Option Nat :=
  if 48 ≤ c.toNat && c.toNat ≤ 57 then some (c.toNat - 48)
  else if 65 ≤ c.toNat && c.toNat ≤ 70 then some (c.toNat - 55)
  else if 97 ≤ c.toNat && c.toNat ≤ 102 then some (c.toNat - 87)
  else none

/-- Percent-decoding of a query component (`+` is space; a malformed
percent escape is kept verbatim, as `URLSearchParams` does). -/
def pctDecode : List Char → List Char
  | [] => []
  | '+' :: rest => ' ' :: pctDecode rest
  | '%' :: a :: b :: rest =>
    match hexDigitVal? a, hexDigitVal? b with
    | some x, some y => Char.ofNat (16 * x + y) :: pctDecode rest
    | _, _ => '%' :: pctDecode (a :: b :: rest)
  | c :: rest => c :: pctDecode rest

/-- UTF-8 bytes of a code point. -/
def utf8Bytes (n : Nat) : List Nat :=
  if n < 0x80 then [n]
  else if n < 0x800 then [0xC0 + n / 64, 0x80 + n % 64]
  else if n < 0x10000 then
    [0xE0 + n / 4096, 0x80 + (n / 64) % 64, 0x80 + n % 64]
  else
    [0xF0 + n / 262144, 0x80 + (n / 4096) % 64, 0x80 + (n / 64) % 64,
     0x80 + n % 64]

/-- Upper-case hex digit. -/
def hexDigitUpper (n : Nat) : Char :=
  if n < 10 then Char.ofNat (48 + n) else Char.ofNat (55 + n)

/-- One character of the urlencoded serializer. -/
def formEncodeChar (c : Char) : List Char :=
  if c == ' ' then ['+']
  else if (48 ≤ c.toNat && c.toNat ≤ 57) || (65 ≤ c.toNat && c.toNat ≤ 90)
      || (97 ≤ c.toNat && c.toNat ≤ 122) || c == '*' || c == '-'
      || c == '.' || c == '_' then [c]
  else (utf8Bytes c.toNat).foldr
    (fun b acc => '%' :: hexDigitUpper (b / 16) :: hexDigitUpper (b % 16) :: acc) []

/-- application/x-www-form-urlencoded serialization of one component. -/
def formEncode (s : String) : String :=
  String.mk (s.data.foldr (fun c acc => formEncodeChar c ++ acc) [])

/-- Split into segments at every occurrence of `sep` (segments may be
empty). -/
def splitSegs (sep : Char) : List Char → List (List Char)
  | [] => [[]]
  | c :: cs =>
    let r := splitSegs sep cs
    if c == sep then [] :: r
    else
      match r with
      | [] => [[c]]
      | h :: t => (c :: h) :: t

/-- Parse a raw query string into decoded `(name, value)` pairs, the
way `URLSearchParams` does (empty segments are skipped; a segment
without `=` has an empty value). -/
def parseParams (q : List Char) : List (String × String) :=
  (splitSegs '&' q).filterMap fun seg =>
    if seg.isEmpty then none
    else
      match splitAtFirstChar '=' seg with
      | some (n, v) => some (String.mk (pctDecode n), String.mk (pctDecode v))
      | none => some (String.mk (pctDecode seg), "")

/-- The components of a parsed URL that `normalizeUrl` manipulates. -/
structure UrlParts where
  scheme : String
  core : String
  params : List (String × String)
  fragment : Option String
deriving DecidableEq, Repr

/-- Parse of `new URL(url)` (absolute URLs only): `none` models the
constructor throwing. -/
def parseUrlModel (url : String) : Option UrlParts :=
  match splitAtFirstChar ':' url.data with
  | none => none
  | some (schemeChars, rest) =>
    match schemeChars with
    | [] => none
    | c0 :: crest =>
      if isAsciiAlpha c0 && crest.all isSchemeChar then
        let (preFrag, frag) :=
          match splitAtFirstChar '#' rest with
          | some (p, f) => (p, some (String.mk f))
          | none => (rest, none)
        let (core, params) :=
          match splitAtFirstChar '?' preFrag with
          | some (co, q) => (co, parseParams q)
          | none => (preFrag, [])
        some ⟨String.mk schemeChars, String.mk core, params, frag⟩
      else none

/-- Serialization of the parts back to a URL string (after the search
parameters have been re-serialized; an empty parameter list drops the
`?`). -/
def serializeUrl (u : UrlParts) : String :=
  u.scheme ++ ":" ++ u.core
  ++ (if u.params.isEmpty then ""
      else "?" ++ String.intercalate "&"
        (u.params.map (fun p => formEncode p.1 ++ "=" ++ formEncode p.2)))
  ++ (match u.fragment with
      | some f => "#" ++ f
      | none => "")

/-- The tracking parameters stripped by `normalizeUrl`. -/
def utmParams : List String :=
  ["utm_source", "utm_medium", "utm_campaign", "utm_content", "utm_term"]

/-- The five `searchParams.delete(p)` calls. -/
def deleteUtm (u : UrlParts) : UrlParts :=
  { u with params := u.params.filter (fun p => !utmParams.contains p.1) }

/-- `normalizeUrl` from src/utils/helpers.ts: strip the `utm_*` query
parameters of a parseable URL; return an unparseable input unchanged. -/
def normalizeUrl (url : String) : String :=
  match parseUrlModel url with
  | some u => serializeUrl (deleteUtm u)
  | none => url

/-! ### Data model (src/types/index.ts)

`NewsItem.publishedAt` is a JS `Date`; only `getTime()` (milliseconds,
`|| 0` for a missing or invalid date) is observed by this code, so it
is modelled as `Option Int`.  `VerifiedNewsItem extends NewsItem` is
modelled by nesting the underlying item.  `category` is one of the
string literals `crypto`, `indian-stocks`, `geopolitical`. -/

structure NewsItem where
  title : String
  url : String
  source : String
  category : String
  publishedAt : Option Int := none
  summary : Option String := none
deriving DecidableEq, Repr

/-! ### Deduplication store (src/services/deduplication.ts)

The sql.js table `seen_news (hash TEXT PRIMARY KEY, title, category,
first_seen)` is modelled as a list of rows in insertion order; the
primary-key property is the invariant proved in claim C2, maintained by
`filterNew`'s found-check (the `INSERT OR IGNORE` is only reached when
the hash was just checked to be absent).  `new Date().toISOString()`
enters as the explicit `now` argument; sql.js compares TEXT columns
lexicographically, which is `<` on ISO-8601 strings.  The SHA-256
`hashString` is the uninterpreted `hs` parameter (see the header). -/

structure SeenRecord where
  hash : String
  title : String
  category : String
  firstSeen : String
deriving DecidableEq, Repr

/-- `DeduplicationService.computeHash`:
`hashString(normalizeUrl(url) + "|" + normalizeTitle(title))`. -/
def computeHash (hs : String → String) (item : NewsItem) : String :=
  hs (normalizeUrl item.url ++ "|" ++ normalizeTitle item.title)

/-- The `SELECT 1 FROM seen_news WHERE hash = ?` membership probe. -/
def hashMem (db : List SeenRecord) (h : String) : Bool :=
  db.any (fun r => r.hash == h)

/-- The loop body of `filterNew`: probe each item's hash, insert the
missing ones immediately (insert-before-continue), collect them. -/
def filterNewGo (hs : String → String) (now : String) :
    List SeenRecord → List NewsItem → List NewsItem × List SeenRecord
  | db, [] => ([], db)
  | db, item :: rest =>
    let h := computeHash hs item
    if hashMem db h then filterNewGo hs now db rest
    else
      let p := filterNewGo hs now (db ++ [⟨h, item.title, item.category, now⟩]) rest
      (item :: p.1, p.2)

/-- `DeduplicationService.filterNew` (with the empty-input early
return; the uninitialized-db guard is outside the model: the store is
initialized before use). -/
def filterNew (hs : String → String) (now : String)
    (db : List SeenRecord) (items : List NewsItem) :
    List NewsItem × List SeenRecord :=
  if items.isEmpty then (items, db) else filterNewGo hs now db items

/-- `DeduplicationService.cleanup`:
`DELETE FROM seen_news WHERE first_seen < cutoff`, returning
`(changes, remaining rows)`. -/
def cleanupDb (cutoff : String) (db : List SeenRecord) :
    Nat × List SeenRecord :=
  let kept := db.filter (fun r => !decide (r.firstSeen < cutoff))
  (db.length - kept.length, kept)

/-- The store's mutating operations, for the sequence invariant of
claim C2. -/
inductive StoreOp where
  | filterOp (now : String) (items : List NewsItem)
  | cleanupOp (cutoff : String)

/-- Apply one store operation to the table. -/
def applyStoreOp (hs : String → String) (db : List SeenRecord) :
    StoreOp → List SeenRecord
  | .filterOp now items => (filterNew hs now db items).2
  | .cleanupOp cutoff => (cleanupDb cutoff db).2

/-- Run a sequence of store operations from the empty store. -/
def runStoreOps (hs : String → String) (ops : List StoreOp) : List SeenRecord :=
  ops.foldl (applyStoreOp hs) []

/-! ### Collector post-processing (src/collectors)

`collectGeopoliticalNews` / `collectCryptoNews` / `collectIndianStockNews`
all end with the same pure tail over whatever the adapters produced:
`deduplicateByTitle` (first occurrence wins, keyed on
`title.toLowerCase().trim().replace(/\s+/g, ' ')`, the same expression
as `normalizeTitle`), a stable sort descending by
`publishedAt?.getTime() || 0` (JS `Array.prototype.sort` is stable),
and `slice(0, cap)` with cap 8 for geopolitical and crypto and
`weekend ? 5 : 10` for the market category (`isWeekendIndia()` enters
as the explicit `weekend` flag). -/

/-- `publishedAt?.getTime() || 0`. -/
def dateKey (item : NewsItem) : Int := item.publishedAt.getD 0

/-- Stable descending insertion: `x` goes after every earlier item
with an equal-or-larger key. -/
def insertByDateDesc (x : NewsItem) : List NewsItem → List NewsItem
  | [] => [x]
  | y :: ys =>
    if dateKey y < dateKey x then x :: y :: ys else y :: insertByDateDesc x ys

/-- The collectors' `sort((a, b) => dateB - dateA)` (stable, descending
by `dateKey`). -/
def sortByDateDesc (items : List NewsItem) : List NewsItem :=
  items.foldl (fun acc x => insertByDateDesc x acc) []

/-- The collectors' `deduplicateByTitle` (Set-based filter, first
occurrence of each normalized title wins). -/
def deduplicateByTitleGo (seen : List String) : List NewsItem → List NewsItem
  | [] => []
  | item :: rest =>
    let key := normalizeTitle item.title
    if seen.contains key then deduplicateByTitleGo seen rest
    else item :: deduplicateByTitleGo (key :: seen) rest

/-- `deduplicateByTitle(items)`. -/
def deduplicateByTitle (items : List NewsItem) : List NewsItem :=
  deduplicateByTitleGo [] items

/-- Dedup-then-sort, shared by all three collectors. -/
def processNews (items : List NewsItem) : List NewsItem :=
  sortByDateDesc (deduplicateByTitle items)

/-- `collectGeopoliticalNews`'s news output: `unique.slice(0, 8)`. -/
def geoNewsOutput (items : List NewsItem) : List NewsItem :=
  (processNews items).take 8

/-- `collectCryptoNews`'s news output: `unique.slice(0, 8)`. -/
def cryptoNewsOutput (items : List NewsItem) : List NewsItem :=
  (processNews items).take 8

/-- `collectIndianStockNews`'s news output:
`unique.slice(0, weekend ? 5 : 10)`. -/
def stockNewsOutput (weekend : Bool) (items : List NewsItem) : List NewsItem :=
  (processNews items).take (if weekend then 5 else 10)

/-! ### Retry combinator (src/utils/helpers.ts, `withRetry`)

The effectful closure `fn` is modelled as a map from the (1-based)
attempt number to that attempt's outcome; an attempt's error is its
message string.  The model returns the final outcome together with the
sleep durations performed between attempts and the warn-log lines, in
order.  `throw lastError` after an exhausted loop is
`Except.error (some e)`; with `maxRetries = 0` the loop never runs and
JavaScript throws `undefined`, which is `Except.error none`.
(Source defaults: `maxRetries = 3`, `delayMs = 2000`,
`label = 'operation'`.) -/

/-- The warn line
`` `${label} attempt ${attempt}/${maxRetries} failed: ${message}` ``. -/
def retryWarnMsg (label : String) (attempt maxRetries : Nat) (msg : String) : String :=
  label ++ " attempt " ++ toString attempt ++ "/" ++ toString maxRetries
    ++ " failed: " ++ msg

/-- The message of a failed attempt (unused for successes). -/
def errMsg {A : Type} : Except String A → String
  | .error e => e
  | .ok _ => ""

/-- The retry loop with `remaining` attempts left, currently at
1-based attempt number `attempt`; `last` is the error of the previous
attempt (for the post-loop `throw lastError`). -/
def retryGo {A : Type} (fn : Nat → Except String A) (maxRetries delayMs : Nat)
    (label : String) :
    Nat → Nat → Option String → Except (Option String) A × List Nat × List String
  | 0, _, last => (.error last, [], [])
  | r + 1, attempt, _ =>
    match fn attempt with
    | .ok a => (.ok a, [], [])
    | .error e =>
      let msg := retryWarnMsg label attempt maxRetries e
      match r with
      | 0 => (.error (some e), [], [msg])
      | r' + 1 =>
        let p := retryGo fn maxRetries delayMs label (r' + 1) (attempt + 1) (some e)
        (p.1, delayMs * attempt :: p.2.1, msg :: p.2.2)

/-- `withRetry(fn, maxRetries, delayMs, label)`:
result × sleeps performed × warn lines logged. -/
def withRetry {A : Type} (fn : Nat → Except String A) (maxRetries delayMs : Nat)
    (label : String) : Except (Option String) A × List Nat × List String :=
  retryGo fn maxRetries delayMs label maxRetries 1 none

/-! ### JSON values (for src/services/verifier.ts, `parseResponse`)

`JSON.parse` output.  A numeric literal is kept exactly as
mantissa × 10^exp10 (claim-relevant numbers are small integers; the
exact-rational reading of a literal stands in for the IEEE double).
Parsed objects and arrays are fresh JS objects, so as `Map` keys they
compare by identity and never collide with anything; `jsSameValueZero`
below therefore returns `false` on them. -/

inductive Json where
  | null
  | bool (b : Bool)
  | num (mantissa : Int) (exp10 : Int)
  | str (s : String)
  | arr (elems : List Json)
  | obj (fields : List (String × Json))

/-- Value equality of two parsed numeric literals:
m1·10^e1 = m2·10^e2. -/
def numValEq (m1 e1 m2 e2 : Int) : Bool :=
  if e1 ≤ e2 then m1 == m2 * 10 ^ (e2 - e1).toNat
  else m2 == m1 * 10 ^ (e1 - e2).toNat

/-- SameValueZero on parsed JSON values (the `Map` key comparison);
objects and arrays compare by identity, hence never equal here. -/
def jsSameValueZero : Json → Json → Bool
  | .null, .null => true
  | .bool a, .bool b => a == b
  | .num m1 e1, .num m2 e2 => numValEq m1 e1 m2 e2
  | .str a, .str b => a == b
  | _, _ => false

/-- Property access `j.name` (only objects have fields; a duplicate
JSON key keeps the last occurrence, as in `JSON.parse`). -/
def jsField (j : Json) (name : String) : Option Json :=
  match j with
  | .obj fields => fields.foldl (fun acc kv => if kv.1 == name then some kv.2 else acc) none
  | _ => none

/-- JS truthiness of a parsed JSON value. -/
def jsTruthy : Json → Bool
  | .null => false
  | .bool b => b
  | .num m _ => m != 0
  | .str s => !s.isEmpty
  | .arr _ => true
  | .obj _ => true

/-- `x || dflt` where `x` may be `undefined` (`none`). -/
def jsOr (v : Option Json) (dflt : Json) : Json :=
  match v with
  | some j => if jsTruthy j then j else dflt
  | none => dflt

/-- Strict equality `j === s` against a string literal. -/
def isStrEq (j : Json) (s : String) : Bool :=
  match j with
  | .str t => t == s
  | _ => false

/-- Is this JSON `null`?  (Property access on `null` throws.) -/
def isNullJson : Json → Bool
  | .null => true
  | _ => false

/-- Template-literal display `${v}` of a parsed JSON value.  Exotic
displays (negative-exponent numbers, arrays) are abbreviated — they are
reachable only through a `reason` field that is not a string, which no
claim exercises beyond this function. -/
def jsTemplateStr : Json → String
  | .str s => s
  | .num m e => if 0 ≤ e then toString (m * 10 ^ e.toNat)
      else toString m ++ "e" ++ toString e
  | .bool b => cond b "true" "false"
  | .null => "null"
  | .arr _ => ""
  | .obj _ => "[object Object]"

/-! ### JSON parser (`JSON.parse` on the extracted substring) -/

/-- JSON insignificant whitespace. -/
def skipJsonWs (cs : List Char) : List Char :=
  cs.dropWhile (fun c => c == ' ' || c == '\t' || c == '\n' || c == '\r')

/-- Body of a JSON string literal (after the opening quote):
accumulates decoded characters, returns the string and the rest after
the closing quote. -/
def parseStrBody (acc : List Char) : List Char → Option (String × List Char)
  | [] => none
  | '"' :: rest => some (String.mk acc.reverse, rest)
  | '\\' :: e :: rest =>
    match e with
    | '"' => parseStrBody ('"' :: acc) rest
    | '\\' => parseStrBody ('\\' :: acc) rest
    | '/' => parseStrBody ('/' :: acc) rest
    | 'b' => parseStrBody (Char.ofNat 8 :: acc) rest
    | 'f' => parseStrBody (Char.ofNat 12 :: acc) rest
    | 'n' => parseStrBody (Char.ofNat 10 :: acc) rest
    | 'r' => parseStrBody (Char.ofNat 13 :: acc) rest
    | 't' => parseStrBody (Char.ofNat 9 :: acc) rest
    | 'u' =>
      match rest with
      | a :: b :: c :: d :: rest2 =>
        match hexDigitVal? a, hexDigitVal? b, hexDigitVal? c, hexDigitVal? d with
        | some x1, some x2, some x3, some x4 =>
          parseStrBody (Char.ofNat (((x1 * 16 + x2) * 16 + x3) * 16 + x4) :: acc) rest2
        | _, _, _, _ => none
      | _ => none
    | _ => none
  | c :: rest => if c.toNat < 32 then none else parseStrBody (c :: acc) rest

/-- Digits to a natural number. -/
def digitsToNat (ds : List Char) : Nat :=
  ds.foldl (fun a c => a * 10 + (c.toNat - 48)) 0

/-- A JSON number literal: optional minus, integer part (`0` or a
nonzero-led digit run), optional fraction, optional exponent.  Returns
(mantissa, decimal exponent). -/
def parseNum (cs : List Char) : Option ((Int × Int) × List Char) :=
  let (neg, cs1) :=
    match cs with
    | '-' :: t => (true, t)
    | _ => (false, cs)
  let intRes : Option (List Char × List Char) :=
    match cs1 with
    | '0' :: t => some (['0'], t)
    | _ =>
      let ds := cs1.takeWhile Char.isDigit
      if ds.isEmpty then none else some (ds, cs1.drop ds.length)
  match intRes with
  | none => none
  | some (intDs, cs2) =>
    let fracRes : Option (List Char × List Char) :=
      match cs2 with
      | '.' :: t =>
        let ds := t.takeWhile Char.isDigit
        if ds.isEmpty then none else some (ds, t.drop ds.length)
      | _ => some ([], cs2)
    match fracRes with
    | none => none
    | some (fracDs, cs3) =>
      let expRes : Option (Int × List Char) :=
        match cs3 with
        | 'e' :: t | 'E' :: t =>
          let (esign, t1) :=
            match t with
            | '+' :: u => ((1 : Int), u)
            | '-' :: u => ((-1 : Int), u)
            | _ => ((1 : Int), t)
          let ds := t1.takeWhile Char.isDigit
          if ds.isEmpty then none
          else some (esign * (digitsToNat ds : Int), t1.drop ds.length)
        | _ => some (0, cs3)
      match expRes with
      | none => none
      | some (expVal, cs4) =>
        let mag : Int := (digitsToNat (intDs ++ fracDs) : Int)
        some ((if neg then -mag else mag, expVal - (fracDs.length : Int)), cs4)

mutual

/-- One JSON value (recursive descent; `fuel` bounds the recursion and
`2·|input| + 2` is always sufficient). -/
def parseJsonVal : Nat → List Char → Option (Json × List Char)
  | 0, _ => none
  | fuel + 1, cs =>
    match cs with
    | [] => none
    | '\x7b' :: rest =>
      let cs1 := skipJsonWs rest
      match cs1 with
      | '\x7d' :: r2 => some (.obj [], r2)
      | _ => parseJsonMembers fuel cs1 []
    | '[' :: rest =>
      let cs1 := skipJsonWs rest
      match cs1 with
      | ']' :: r2 => some (.arr [], r2)
      | _ => parseJsonElems fuel cs1 []
    | '"' :: rest => (parseStrBody [] rest).map (fun p => (.str p.1, p.2))
    | 't' :: 'r' :: 'u' :: 'e' :: rest => some (.bool true, rest)
    | 'f' :: 'a' :: 'l' :: 's' :: 'e' :: rest => some (.bool false, rest)
    | 'n' :: 'u' :: 'l' :: 'l' :: rest => some (.null, rest)
    | _ => (parseNum cs).map (fun p => (.num p.1.1 p.1.2, p.2))

/-- The elements of a non-empty JSON array (after `[` and leading
whitespace). -/
def parseJsonElems : Nat → List Char → List Json → Option (Json × List Char)
  | 0, _, _ => none
  | fuel + 1, cs, acc =>
    match parseJsonVal fuel cs with
    | none => none
    | some (v, rest) =>
      match skipJsonWs rest with
      | ',' :: r2 => parseJsonElems fuel (skipJsonWs r2) (acc ++ [v])
      | ']' :: r2 => some (.arr (acc ++ [v]), r2)
      | _ => none

/-- The members of a non-empty JSON object (after `{` and leading
whitespace). -/
def parseJsonMembers : Nat → List Char → List (String × Json) → Option (Json × List Char)
  | 0, _, _ => none
  | fuel + 1, cs, acc =>
    match cs with
    | '"' :: rest =>
      match parseStrBody [] rest with
      | none => none
      | some (k, r1) =>
        match skipJsonWs r1 with
        | ':' :: r2 =>
          match parseJsonVal fuel (skipJsonWs r2) with
          | none => none
          | some (v, r3) =>
            match skipJsonWs r3 with
            | ',' :: r4 => parseJsonMembers fuel (skipJsonWs r4) (acc ++ [(k, v)])
            | '\x7d' :: r4 => some (.obj (acc ++ [(k, v)]), r4)
            | _ => none
        | _ => none
    | _ => none

end

/-- `JSON.parse(s)`: one value spanning the whole input (up to
whitespace). -/
def parseJson (s : String) : Option Json :=
  match parseJsonVal (2 * s.data.length + 2) (skipJsonWs s.data) with
  | some (j, rest) => if (skipJsonWs rest).isEmpty then some j else none
  | none => none

/-! ### Verifier response parsing (src/services/verifier.ts) -/

/-- The match of the greedy regex `/\[[\s\S]*\]/`: the substring from
the first `[` of the text to the last `]` (the leftmost possible start
is the first `[`, and greediness extends the match to the last `]`);
no match when no `]` follows the first `[`. -/
def extractArr (text : String) : Option String :=
  let cs := text.data
  match cs.findIdx? (fun c => c == '['), cs.reverse.findIdx? (fun c => c == ']') with
  | some p, some rq =>
    let q := cs.length - 1 - rq
    if p < q then some (String.mk ((cs.drop p).take (q - p + 1))) else none
  | _, _ => none

/-- A per-item verdict as `parseResponse` stores it:
`(verdict: item.verdict || 'PASS', reason: item.reason || '')` (the
raw JSON values, as in the dynamically-typed source). -/
structure Verdict where
  verdict : Json
  reason : Json

/-- The default verdict `(verdict: 'PASS', reason: '')`. -/
def dfltVerdict : Verdict := ⟨.str "PASS", .str ""⟩

/-- The `Map` key comparison: SameValueZero with `none` for
`undefined`. -/
def keyEqO : Option Json → Option Json → Bool
  | none, none => true
  | some a, some b => jsSameValueZero a b
  | _, _ => false

/-- `JS Map.set`: replace the value at a SameValueZero-equal key, else
append (`none` keys model `undefined`). -/
def mapSet : List (Option Json × Verdict) → Option Json → Verdict →
    List (Option Json × Verdict)
  | [], k, v => [(k, v)]
  | (k', v') :: rest, k, v =>
    if keyEqO k' k then (k', v) :: rest
    else (k', v') :: mapSet rest k v

/-- `JS Map.get`. -/
def mapGet : List (Option Json × Verdict) → Option Json → Option Verdict
  | [], _ => none
  | (k', v') :: rest, k =>
    if keyEqO k' k then some v'
    else mapGet rest k

/-- `(verdict: item.verdict || 'PASS', reason: item.reason || '')`. -/
def mkVerdict (el : Json) : Verdict :=
  ⟨jsOr (jsField el "verdict") (.str "PASS"), jsOr (jsField el "reason") (.str "")⟩

/-- `parseResponse` after the regex extraction: `JSON.parse` the
substring, require an array, index the entries by their `index` field
in a `Map`, and read positions 1..n back out, defaulting to PASS.
Every failure path (no parse, non-array payload, or the `TypeError`
thrown by `item.index` on a `null` element) is caught and yields all
defaults. -/
def parseResponseCore (extracted : Option String) (expectedCount : Nat) :
    List Verdict :=
  match extracted with
  | none => List.replicate expectedCount dfltVerdict
  | some sub =>
    match parseJson sub with
    | none => List.replicate expectedCount dfltVerdict
    | some (.arr elems) =>
      if elems.any isNullJson then List.replicate expectedCount dfltVerdict
      else
        let indexed := elems.foldl
          (fun m el => mapSet m (jsField el "index") (mkVerdict el)) []
        (List.range expectedCount).map
          (fun i => (mapGet indexed (some (.num (Int.ofNat i + 1) 0))).getD dfltVerdict)
    | some _ => List.replicate expectedCount dfltVerdict

/-- `VerifierService.parseResponse(text, expectedCount)`. -/
def parseResponse (text : String) (expectedCount : Nat) : List Verdict :=
  parseResponseCore (extractArr text) expectedCount

/-- Modelled from the claim's words (for refutation): the first
bracketed array substring of the text read non-greedily, i.e. from the
first `[` to the first `]` after it — this is what the phrase "extracts
the first bracketed array substring" denotes, and it differs from the
code's greedy regex. -/
def extractFirstArr (text : String) : Option String :=
  let cs := text.data
  match cs.findIdx? (fun c => c == '[') with
  | none => none
  | some p =>
    match (cs.drop (p + 1)).findIdx? (fun c => c == ']') with
    | none => none
    | some off => some (String.mk ((cs.drop p).take (off + 2)))

/-- Modelled from the claim's words: `parseResponse` as the claim
describes it, with the non-greedy extraction. -/
def parseResponseSpec (text : String) (expectedCount : Nat) : List Verdict :=
  parseResponseCore (extractFirstArr text) expectedCount

/-! ### Verdict application and fallback (src/services/verifier.ts) -/

/-- `VerifiedNewsItem extends NewsItem` (spread of the item with the verdict fields),
modelled by nesting: `isVerified` plus the optional note.  The note
keeps the raw JSON `reason` value the FAIL branch assigns. -/
structure VerifiedNewsItem where
  item : NewsItem
  isVerified : Bool
  verificationNote : Option Json

/-- One step of `callAI`'s result mapping: a FAIL verdict marks the
item unverified with the reason as note; UNCERTAIN keeps it verified
with the `⚠️ Unverified:` caveat; anything else (PASS included) is
verified with no note. -/
def applyOne (item : NewsItem) : Option Verdict → VerifiedNewsItem
  | some v =>
    if isStrEq v.verdict "FAIL" then ⟨item, false, some v.reason⟩
    else if isStrEq v.verdict "UNCERTAIN" then
      ⟨item, true, some (.str ("⚠️ Unverified: " ++ jsTemplateStr v.reason))⟩
    else ⟨item, true, none⟩
  | none => ⟨item, true, none⟩

/-- `items.map((item, index) => ...)` over the verdict array. -/
def applyVerdicts (verdicts : List Verdict) : Nat → List NewsItem → List VerifiedNewsItem
  | _, [] => []
  | index, item :: rest => applyOne item verdicts[index]? :: applyVerdicts verdicts (index + 1) rest

/-- `VerifierService.callAI` once the evaluator's response text is in
hand (the network call itself is outside the model): parse the
response against the item count and map the verdicts over the items. -/
def callAIWith (items : List NewsItem) (responseText : String) : List VerifiedNewsItem :=
  applyVerdicts (parseResponse responseText items.length) 0 items

/-- `TIER_1_SOURCES` from src/config.ts. -/
def TIER_1_SOURCES : List String :=
  ["Reuters", "BBC", "BBC World", "Moneycontrol", "CoinDesk",
   "Economic Times", "LiveMint", "Al Jazeera"]

/-- The fixed note of the fallback path. -/
def fallbackNote : String := "Excluded: verification unavailable, non-Tier 1 source"

/-- `TIER_1_SOURCES.some(src => item.source.toLowerCase().includes(src.toLowerCase()))`. -/
def tier1Match (source : String) : Bool :=
  TIER_1_SOURCES.any (fun src => jsIncludes (jsToLower source) (jsToLower src))

/-- `VerifierService.fallbackVerification`: pure allow-list check, no
evaluator involved. -/
def fallbackVerification (items : List NewsItem) : List VerifiedNewsItem :=
  items.map fun item =>
    let isTier1 := tier1Match item.source
    ⟨item, isTier1, if isTier1 then none else some (.str fallbackNote)⟩

/-! ### Statement helpers and concrete fixtures -/

/-- Does array element `el` carry `index` field with numeric value
`k`?  (`Map.get(k)` hits exactly these entries.) -/
def elKeyMatches (el : Json) (k : Int) : Bool :=
  keyEqO (jsField el "index") (some (.num k 0))

/-- The last verdict stored under numeric index `k` while the `Map` is
built (later entries with the same index overwrite earlier ones). -/
def lastIndexMatch (elems : List Json) (k : Int) : Option Verdict :=
  elems.foldl (fun acc el => if elKeyMatches el k then some (mkVerdict el) else acc) none

/-- Witness fixture: an item from a Tier-1 source. -/
def wReuters : NewsItem :=
  { title := "a", url := "u", source := "Reuters", category := "geopolitical" }

/-- Witness fixture: an item from an unknown source. -/
def wBlog : NewsItem :=
  { title := "b", url := "u", source := "Some Blog", category := "geopolitical" }

/-- Witness fixture: a URL with a tracking parameter. -/
def wUtmItem : NewsItem :=
  { title := "Hello World", url := "https://x.com/a?utm_source=x",
    source := "s", category := "crypto" }

/-- Witness fixture: the same content without the tracking parameter
and with a casing/whitespace variation of the title. -/
def wPlainItem : NewsItem :=
  { title := " hello   world ", url := "https://x.com/a",
    source := "s2", category := "crypto" }

/-- Witness fixture: one plain item for the verifier claims. -/
def wOneItem : NewsItem :=
  { title := "t", url := "u", source := "s", category := "crypto" }

/-- Witness fixture: 20 raw items with distinct titles and valid
timestamps. -/
def wTwenty : List NewsItem :=
  (List.range 20).map (fun i =>
    { title := toString i, url := "u", source := "s",
      category := "geopolitical", publishedAt := some (i : Int) })

/-- Equality class of a JSON value under SameValueZero (proof device:
primitives map to a token, objects and arrays — identity-compared — map
to `none`). -/
inductive SvzTok where
  | nullTok
  | boolTok (b : Bool)
  | numTok (q : ℚ)
  | strTok (s : String)
deriving DecidableEq

/-- The SameValueZero class of a parsed JSON value. -/
def svzTok : Json → Option SvzTok
  | .null => some .nullTok
  | .bool b => some (.boolTok b)
  | .num m e => some (.numTok ((m : ℚ) * 10 ^ e))
  | .str s => some (.strTok s)
  | .arr _ => none
  | .obj _ => none

/-- The SameValueZero class of a `Map` key (`undefined` is its own
class). -/
def keyTok : Option Json → Option (Option SvzTok)
  | none => some none
  | some j => (svzTok j).map some

/-- Trailing-whitespace removal (the second half of `trim`); `jsTrim`
is `trimEnd` after `dropWs`. -/
def trimEnd (l : List Char) : List Char :=
  (l.reverse.dropWhile isJsWs).reverse

/-! ### Lemmas about the deduplication store -/

theorem hashMem_append (db : List SeenRecord) (r : SeenRecord) (h : String) :
    hashMem (db ++ [r]) h = (hashMem db h || (r.hash == h)) := by
  simp [hashMem]

theorem hashMem_eq_false_iff (db : List SeenRecord) (h : String) :
    hashMem db h = false ↔ h ∉ db.map SeenRecord.hash := by
  constructor
  · intro hf hmem
    rcases List.mem_map.mp hmem with ⟨r, hr, hrh⟩
    have : hashMem db h = true := by
      simp only [hashMem, List.any_eq_true]
      exact ⟨r, hr, by simp [hrh]⟩
    simp [this] at hf
  · intro hmem
    cases hm : hashMem db h with
    | false => rfl
    | true =>
      simp only [hashMem, List.any_eq_true] at hm
      rcases hm with ⟨r, hr, hrh⟩
      exact absurd (List.mem_map.mpr ⟨r, hr, by simpa using hrh⟩) hmem

theorem filterNewGo_mono (hs : String → String) (now : String)
    (items : List NewsItem) : ∀ (db : List SeenRecord) (h : String),
    hashMem db h = true → hashMem (filterNewGo hs now db items).2 h = true := by
  induction items with
  | nil => intro db h hh; simpa [filterNewGo] using hh
  | cons item rest ih =>
    intro db h hh
    cases hc : hashMem db (computeHash hs item) with
    | true => simpa [filterNewGo, hc] using ih db h hh
    | false =>
      simp only [filterNewGo, hc, Bool.false_eq_true, if_false]
      exact ih _ h (by simp [hashMem_append, hh])

theorem filterNewGo_inserts (hs : String → String) (now : String)
    (items : List NewsItem) : ∀ (db : List SeenRecord) (x : NewsItem),
    x ∈ items → hashMem (filterNewGo hs now db items).2 (computeHash hs x) = true := by
  induction items with
  | nil => intro db x hx; cases hx
  | cons item rest ih =>
    intro db x hx
    cases hc : hashMem db (computeHash hs item) with
    | true =>
      simp only [filterNewGo, hc, if_true]
      rcases List.mem_cons.mp hx with hx | hx
      · subst hx; exact filterNewGo_mono hs now rest db _ hc
      · exact ih db x hx
    | false =>
      simp only [filterNewGo, hc, Bool.false_eq_true, if_false]
      rcases List.mem_cons.mp hx with hx | hx
      · subst hx
        exact filterNewGo_mono hs now rest _ _ (by simp [hashMem_append])
      · exact ih _ x hx

theorem filterNewGo_all_seen (hs : String → String) (now : String)
    (items : List NewsItem) : ∀ (db : List SeenRecord),
    (∀ x ∈ items, hashMem db (computeHash hs x) = true) →
    filterNewGo hs now db items = ([], db) := by
  induction items with
  | nil => intro db _; rfl
  | cons item rest ih =>
    intro db hall
    have hc : hashMem db (computeHash hs item) = true := hall item (by simp)
    simp only [filterNewGo, hc, if_true]
    exact ih db (fun x hx => hall x (by simp [hx]))

theorem filterNewGo_out_fresh (hs : String → String) (now : String)
    (items : List NewsItem) : ∀ (db : List SeenRecord) (h : String),
    hashMem db h = true →
    h ∉ (filterNewGo hs now db items).1.map (computeHash hs) := by
  induction items with
  | nil => intro db h _; simp [filterNewGo]
  | cons item rest ih =>
    intro db h hh
    cases hc : hashMem db (computeHash hs item) with
    | true => simpa [filterNewGo, hc] using ih db h hh
    | false =>
      simp only [filterNewGo, hc, Bool.false_eq_true, if_false,
        List.map_cons, List.mem_cons]
      rintro (heq | hmem)
      · subst heq; simp [hh] at hc
      · exact ih _ h (by simp [hashMem_append, hh]) hmem

theorem filterNewGo_out_nodup (hs : String → String) (now : String)
    (items : List NewsItem) : ∀ (db : List SeenRecord),
    ((filterNewGo hs now db items).1.map (computeHash hs)).Nodup := by
  induction items with
  | nil => intro db; simp [filterNewGo]
  | cons item rest ih =>
    intro db
    cases hc : hashMem db (computeHash hs item) with
    | true => simpa [filterNewGo, hc] using ih db
    | false =>
      simp only [filterNewGo, hc, Bool.false_eq_true, if_false, List.map_cons,
        List.nodup_cons]
      refine ⟨?_, ih _⟩
      exact filterNewGo_out_fresh hs now rest _ _ (by simp [hashMem_append])

theorem filterNewGo_db_nodup (hs : String → String) (now : String)
    (items : List NewsItem) : ∀ (db : List SeenRecord),
    (db.map SeenRecord.hash).Nodup →
    ((filterNewGo hs now db items).2.map SeenRecord.hash).Nodup := by
  induction items with
  | nil => intro db hdb; simpa [filterNewGo] using hdb
  | cons item rest ih =>
    intro db hdb
    cases hc : hashMem db (computeHash hs item) with
    | true => simpa [filterNewGo, hc] using ih db hdb
    | false =>
      simp only [filterNewGo, hc, Bool.false_eq_true, if_false]
      refine ih _ ?_
      have hfresh : computeHash hs item ∉ db.map SeenRecord.hash :=
        (hashMem_eq_false_iff db _).mp hc
      simp [List.nodup_append, hdb, hfresh]

theorem cleanupDb_sublist (cutoff : String) (db : List SeenRecord) :
    (cleanupDb cutoff db).2.Sublist db := by
  simp only [cleanupDb]
  exact List.filter_sublist db

theorem applyStoreOp_nodup (hs : String → String) (db : List SeenRecord)
    (op : StoreOp) (hdb : (db.map SeenRecord.hash).Nodup) :
    ((applyStoreOp hs db op).map SeenRecord.hash).Nodup := by
  cases op with
  | filterOp now items =>
    cases items with
    | nil => simpa [applyStoreOp, filterNew] using hdb
    | cons item rest =>
      simpa [applyStoreOp, filterNew] using
        filterNewGo_db_nodup hs now (item :: rest) db hdb
  | cleanupOp cutoff =>
    exact ((cleanupDb_sublist cutoff db).map SeenRecord.hash).nodup hdb

theorem runStoreOps_go_nodup (hs : String → String) (ops : List StoreOp) :
    ∀ (db : List SeenRecord), (db.map SeenRecord.hash).Nodup →
    ((ops.foldl (applyStoreOp hs) db).map SeenRecord.hash).Nodup := by
  induction ops with
  | nil => intro db hdb; simpa using hdb
  | cons op rest ih =>
    intro db hdb
    exact ih _ (applyStoreOp_nodup hs db op hdb)

/-- Claim C1: `filterNew` never returns the same content twice — for
every store state and item list, a second `filterNew` call with the
same items returns the empty list; within one call the returned items
have pairwise distinct content hashes (an item whose hash equals an
earlier item's is excluded, because every not-found item is inserted
before the next is checked); and after the call every input item's
hash is present in the store. -/
theorem claim_C1 (hs : String → String) (now1 now2 : String)
    (db : List SeenRecord) (items : List NewsItem) :
    (filterNew hs now2 (filterNew hs now1 db items).2 items).1 = []
    ∧ ((filterNew hs now1 db items).1.map (computeHash hs)).Nodup
    ∧ items.all
        (fun x => hashMem (filterNew hs now1 db items).2 (computeHash hs x)) = true := by
  cases items with
  | nil => simp [filterNew]
  | cons item rest =>
    have hne : (item :: rest).isEmpty = false := rfl
    simp only [filterNew, hne, Bool.false_eq_true, if_false]
    refine ⟨?_, filterNewGo_out_nodup hs now1 (item :: rest) db, ?_⟩
    · exact congrArg Prod.fst (filterNewGo_all_seen hs now2 (item :: rest) _
        (fun x hx => filterNewGo_inserts hs now1 (item :: rest) db x hx))
    · exact List.all_eq_true.mpr
        (fun x hx => filterNewGo_inserts hs now1 (item :: rest) db x hx)

/-- Claim C2: starting from the empty store, any sequence of
`filterNew` and `cleanup` operations leaves the stored records with
pairwise distinct `contentHash` keys, and `cleanup` only removes
records (its result is a sublist of the table, so it can never create
duplicates). -/
theorem claim_C2 (hs : String → String) (ops : List StoreOp) :
    ((runStoreOps hs ops).map SeenRecord.hash).Nodup
    ∧ ∀ (cutoff : String) (db : List SeenRecord),
        (cleanupDb cutoff db).2.Sublist db :=
  ⟨runStoreOps_go_nodup hs ops [] (by simp),
   fun cutoff db => cleanupDb_sublist cutoff db⟩

/-! ### Lemmas about the retry combinator -/

theorem retryGo_len {A : Type} (fn : Nat → Except String A) (maxR delay : Nat)
    (label : String) : ∀ (r a : Nat) (last : Option String),
    (retryGo fn maxR delay label r a last).2.1.length ≤ r - 1
    ∧ (retryGo fn maxR delay label r a last).2.2.length ≤ r := by
  intro r
  induction r with
  | zero => intro a last; simp [retryGo]
  | succ r ih =>
    intro a last
    rw [retryGo]
    cases hfa : fn a with
    | ok v => simp
    | error e =>
      cases r with
      | zero => simp
      | succ r' =>
        have h := ih (a + 1) (some e)
        dsimp only
        simp only [List.length_cons]
        exact ⟨by omega, by omega⟩

theorem retryGo_all_fail {A : Type} (fn : Nat → Except String A)
    (maxR delay : Nat) (label : String) : ∀ (r a : Nat) (last : Option String),
    1 ≤ r → a + r = maxR + 1 →
    (∀ k, a ≤ k → k ≤ maxR → (fn k).isOk = false) →
    retryGo fn maxR delay label r a last
      = (.error (some (errMsg (fn maxR))),
         (List.range' a (r - 1)).map (fun k => delay * k),
         (List.range' a r).map (fun k => retryWarnMsg label k maxR (errMsg (fn k)))) := by
  intro r
  induction r with
  | zero => intro a last h1; omega
  | succ r ih =>
    intro a last _ hsum hall
    have hfail : (fn a).isOk = false := hall a (le_refl a) (by omega)
    rw [retryGo]
    cases hfa : fn a with
    | ok v => rw [hfa] at hfail; simp [Except.isOk, Except.toBool] at hfail
    | error e =>
      cases r with
      | zero =>
        have ha : a = maxR := by omega
        subst ha
        have h2 : List.range' a 1 = [a] := by
          rw [List.range'_succ a 0 1]; rfl
        rw [h2]
        dsimp only
        simp [errMsg, hfa]
      | succ r' =>
        have hrec := ih (a + 1) (some e) (by omega) (by omega)
          (fun k hk1 hk2 => hall k (by omega) hk2)
        dsimp only
        rw [hrec]
        have e1 : r' + 1 + 1 - 1 = r' + 1 := rfl
        rw [e1, List.range'_succ a r' 1, List.range'_succ a (r' + 1) 1]
        simp [errMsg, hfa, Prod.mk.injEq]

theorem retryGo_success {A : Type} (fn : Nat → Except String A)
    (maxR delay : Nat) (label : String) (k : Nat) (v : A) :
    ∀ (r a : Nat) (last : Option String),
    a + r = maxR + 1 → a ≤ k → k ≤ maxR → fn k = .ok v →
    (∀ j, a ≤ j → j < k → (fn j).isOk = false) →
    retryGo fn maxR delay label r a last
      = (.ok v, (List.range' a (k - a)).map (fun j => delay * j),
         (List.range' a (k - a)).map
           (fun j => retryWarnMsg label j maxR (errMsg (fn j)))) := by
  intro r
  induction r with
  | zero => intro a last hsum ha hk _ _; omega
  | succ r ih =>
    intro a last hsum ha hk hok hprev
    rw [retryGo]
    by_cases hak : a = k
    · subst hak
      rw [hok]
      simp [Nat.sub_self]
    · have haltk : a < k := lt_of_le_of_ne ha hak
      have hfail : (fn a).isOk = false := hprev a (le_refl a) haltk
      cases hfa : fn a with
      | ok w => rw [hfa] at hfail; simp [Except.isOk, Except.toBool] at hfail
      | error e =>
        cases r with
        | zero => omega
        | succ r' =>
          have hrec := ih (a + 1) (some e) (by omega) (by omega) hk hok
            (fun j hj1 hj2 => hprev j (by omega) hj2)
          dsimp only
          rw [hrec]
          have hka : k - a = (k - (a + 1)) + 1 := by omega
          rw [hka, List.range'_succ a (k - (a + 1)) 1]
          simp [errMsg, hfa, Prod.mk.injEq]

/-- Claim C8, counterexample to the claim as stated: after exhausting
all attempts `withRetry` raises the final attempt's error unchanged —
with every attempt failing as `"boom"` under label `"feedA"`, the
raised failure is exactly `"boom"`; it does not name the label (the
label does not even occur in it, and the raised failure is identical
under a different label). -/
theorem claim_C8_cex :
    (withRetry (fun _ => (.error "boom" : Except String Nat)) 2 100 "feedA").1
        = .error (some "boom")
    ∧ (withRetry (fun _ => (.error "boom" : Except String Nat)) 2 100 "feedA").1
        = (withRetry (fun _ => (.error "boom" : Except String Nat)) 2 100 "feedB").1
    ∧ jsIncludes "boom" "feedA" = false :=
  ⟨rfl, rfl, by decide⟩

/-- Claim C8 (amended): `withRetry` runs the wrapped operation up to
`maxRetries` attempts, sleeping `attempt × delayMs` between
consecutive attempts; it returns the first successful result without
further attempts; and after exhausting all attempts it raises the
final attempt's error unchanged — the operation label appears only in
the per-attempt warning logs. -/
theorem claim_C8 {A : Type} (fn : Nat → Except String A) (N delay : Nat)
    (label : String) :
    ((withRetry fn N delay label).2.1.length ≤ N - 1
      ∧ (withRetry fn N delay label).2.2.length ≤ N)
    ∧ (1 ≤ N → (List.range' 1 N).all (fun k => !(fn k).isOk) = true →
        withRetry fn N delay label
          = (.error (some (errMsg (fn N))),
             (List.range' 1 (N - 1)).map (fun k => delay * k),
             (List.range' 1 N).map (fun k => retryWarnMsg label k N (errMsg (fn k)))))
    ∧ (∀ k v, 1 ≤ k → k ≤ N → fn k = .ok v →
        (List.range' 1 (k - 1)).all (fun j => !(fn j).isOk) = true →
        withRetry fn N delay label
          = (.ok v, (List.range' 1 (k - 1)).map (fun j => delay * j),
             (List.range' 1 (k - 1)).map
               (fun j => retryWarnMsg label j N (errMsg (fn j))))) := by
  refine ⟨retryGo_len fn N delay label N 1 none, ?_, ?_⟩
  · intro hN hall
    have hall' : ∀ k, 1 ≤ k → k ≤ N → (fn k).isOk = false := by
      intro k h1 h2
      have := List.all_eq_true.mp hall k (List.mem_range'_1.mpr ⟨h1, by omega⟩)
      simpa using this
    exact retryGo_all_fail fn N delay label N 1 none hN (by omega) hall'
  · intro k v h1 hk hok hprev
    have hprev' : ∀ j, 1 ≤ j → j < k → (fn j).isOk = false := by
      intro j hj1 hj2
      have := List.all_eq_true.mp hprev j (List.mem_range'_1.mpr ⟨hj1, by omega⟩)
      simpa using this
    exact retryGo_success fn N delay label k v N 1 none (by omega) h1 hk hok hprev'

/-- Claim C8, witness: a concrete operation failing once and
succeeding on attempt 2 of 3 with base delay 5 returns the success,
after one sleep of 5·1 and one warn line carrying the label. -/
theorem claim_C8_witness :
    (1 ≤ 2 ∧ 2 ≤ 3
      ∧ (fun k => if k == 2 then (.ok 42 : Except String Nat) else .error "e") 2 = .ok 42
      ∧ (List.range' 1 (2 - 1)).all
          (fun j => !((fun k => if k == 2 then (.ok 42 : Except String Nat) else .error "e") j).isOk) = true)
    ∧ withRetry (fun k => if k == 2 then (.ok 42 : Except String Nat) else .error "e") 3 5 "L"
        = (.ok 42, [5], ["L attempt 1/3 failed: e"]) := by
  refine ⟨⟨by decide, by decide, rfl, by decide⟩, ?_⟩
  have h := (claim_C8 (fun k => if k == 2 then (.ok 42 : Except String Nat) else .error "e")
      3 5 "L").2.2 2 42 (by decide) (by decide) rfl (by decide)
  rw [h]
  rfl

/-- Claim C6: the verification fallback is a pure function of the
items and the fixed allow-list: every output position carries its
input item, is trusted exactly when `tier1Match` holds of the item's
source (a case-insensitive substring hit of some `TIER_1_SOURCES`
entry), and every non-matching item gets the one fixed note, whose
text contains "verification unavailable". -/
theorem claim_C6 (items : List NewsItem) :
    (fallbackVerification items).length = items.length
    ∧ (∀ (i : Nat) (item : NewsItem), items[i]? = some item →
        (fallbackVerification items)[i]? = some
          (⟨item, tier1Match item.source,
            if tier1Match item.source then none
            else some (.str fallbackNote)⟩ : VerifiedNewsItem))
    ∧ (∀ s, tier1Match s = true ↔
        ∃ src ∈ TIER_1_SOURCES, jsIncludes (jsToLower s) (jsToLower src) = true)
    ∧ jsIncludes fallbackNote "verification unavailable" = true := by
  refine ⟨by simp [fallbackVerification], ?_, ?_, by decide⟩
  · intro i item hi
    simp [fallbackVerification, hi]
  · intro s
    simp [tier1Match, List.any_eq_true]

/-- Claim C6, witness: with sources `"Reuters"` and `"Some Blog"` the
fallback trusts the first (no note) and rejects the second with the
fixed note. -/
theorem claim_C6_witness :
    (fallbackVerification [wReuters, wBlog]).length = 2
    ∧ (fallbackVerification [wReuters, wBlog])[0]? = some ⟨wReuters, true, none⟩
    ∧ (fallbackVerification [wReuters, wBlog])[1]?
        = some ⟨wBlog, false, some (.str fallbackNote)⟩ := by
  refine ⟨(claim_C6 [wReuters, wBlog]).1, ?_, ?_⟩
  · exact (claim_C6 [wReuters, wBlog]).2.1 0 wReuters rfl
  · exact (claim_C6 [wReuters, wBlog]).2.1 1 wBlog rfl

/-! ### Lemmas about the verdict mapping -/

theorem applyVerdicts_length (verdicts : List Verdict) :
    ∀ (items : List NewsItem) (idx : Nat),
    (applyVerdicts verdicts idx items).length = items.length := by
  intro items
  induction items with
  | nil => intro idx; rfl
  | cons item rest ih => intro idx; simp [applyVerdicts, ih (idx + 1)]

theorem applyVerdicts_getElem (verdicts : List Verdict) :
    ∀ (items : List NewsItem) (idx i : Nat),
    (applyVerdicts verdicts idx items)[i]?
      = items[i]?.map (fun item => applyOne item verdicts[idx + i]?) := by
  intro items
  induction items with
  | nil => intro idx i; simp [applyVerdicts]
  | cons item rest ih =>
    intro idx i
    cases i with
    | zero => simp [applyVerdicts]
    | succ i' =>
      have h := ih (idx + 1) i'
      simp only [applyVerdicts, List.getElem?_cons_succ, h]
      have : idx + 1 + i' = idx + (i' + 1) := by omega
      rw [this]

/-- Claim C4, counterexample to the claim as stated: an UNCERTAIN
verdict with reason `"x"` produces the note `"⚠️ Unverified: x"`, not
the claimed `"unverified: x"` — shown both for one mapping step and
end-to-end from a response text. -/
theorem claim_C4_cex :
    applyOne wOneItem (some ⟨.str "UNCERTAIN", .str "x"⟩)
      = (⟨wOneItem, true, some (.str "⚠️ Unverified: x")⟩ : VerifiedNewsItem)
    ∧ "⚠️ Unverified: x" ≠ "unverified: x"
    ∧ callAIWith [wOneItem] "[\x7b\"index\":1,\"verdict\":\"UNCERTAIN\",\"reason\":\"x\"\x7d]"
        = [⟨wOneItem, true, some (.str "⚠️ Unverified: x")⟩] :=
  ⟨rfl, by decide, rfl⟩

/-- Claim C4 (amended): for every non-empty candidate list and every
evaluator response text, the verdict mapping returns one output per
input in order, each output carrying its input item, with FAIL ↦
untrusted + the reason as note, UNCERTAIN ↦ trusted + note
`"⚠️ Unverified: "` followed by the reason, and PASS / anything else /
no verdict at that index ↦ trusted with no note. -/
theorem claim_C4 (items : List NewsItem) (text : String) (_hne : items ≠ []) :
    (callAIWith items text).length = items.length
    ∧ (∀ (i : Nat) (item : NewsItem), items[i]? = some item →
        (callAIWith items text)[i]?
          = some (applyOne item (parseResponse text items.length)[i]?))
    ∧ (∀ (item : NewsItem), applyOne item none
        = (⟨item, true, none⟩ : VerifiedNewsItem))
    ∧ (∀ (item : NewsItem) (v : Verdict), isStrEq v.verdict "FAIL" = true →
        applyOne item (some v) = ⟨item, false, some v.reason⟩)
    ∧ (∀ (item : NewsItem) (v : Verdict), isStrEq v.verdict "FAIL" = false →
        isStrEq v.verdict "UNCERTAIN" = true →
        applyOne item (some v)
          = ⟨item, true, some (.str ("⚠️ Unverified: " ++ jsTemplateStr v.reason))⟩)
    ∧ (∀ (item : NewsItem) (v : Verdict), isStrEq v.verdict "FAIL" = false →
        isStrEq v.verdict "UNCERTAIN" = false →
        applyOne item (some v) = ⟨item, true, none⟩) := by
  refine ⟨applyVerdicts_length _ items 0, ?_, ?_, ?_, ?_, ?_⟩
  · intro i item hi
    have h := applyVerdicts_getElem (parseResponse text items.length) items 0 i
    simp only [callAIWith, h, hi]
    have : (0 : Nat) + i = i := by omega
    rw [this]
    rfl
  · intro item; rfl
  · intro item v hF; simp [applyOne, hF]
  · intro item v hF hU; simp [applyOne, hF, hU]
  · intro item v hF hU; simp [applyOne, hF, hU]

/-- Claim C4, witness: concrete instantiations of every branch of the
mapping for a one-item batch. -/
theorem claim_C4_witness :
    (([wOneItem] : List NewsItem) ≠ [] ∧ ([wOneItem] : List NewsItem)[0]? = some wOneItem
      ∧ isStrEq (Json.str "FAIL") "FAIL" = true)
    ∧ (callAIWith [wOneItem] "no array").length = 1
    ∧ (callAIWith [wOneItem] "no array")[0]?
        = some (applyOne wOneItem (parseResponse "no array" 1)[0]?)
    ∧ applyOne wOneItem (some ⟨.str "FAIL", .str "r"⟩)
        = (⟨wOneItem, false, some (.str "r")⟩ : VerifiedNewsItem) := by
  have h := claim_C4 [wOneItem] "no array" (by simp)
  exact ⟨⟨by simp, rfl, rfl⟩, h.1, h.2.1 0 wOneItem rfl,
    h.2.2.2.1 wOneItem ⟨.str "FAIL", .str "r"⟩ rfl⟩

/-! ### Lemmas about the response parser's Map -/

theorem numValEq_iff (m1 e1 m2 e2 : Int) :
    numValEq m1 e1 m2 e2 = true
      ↔ (m1 : ℚ) * 10 ^ e1 = (m2 : ℚ) * 10 ^ e2 := by
  have h10 : (10 : ℚ) ≠ 0 := by norm_num
  have aux : ∀ (a b : ℚ) (x y : ℤ),
      (a * 10 ^ x = b * 10 ^ y ↔ a = b * 10 ^ (y - x)) := by
    intro a b x y
    rw [zpow_sub₀ h10, ← mul_div_assoc, eq_div_iff (zpow_ne_zero x h10)]
  unfold numValEq
  by_cases h : e1 ≤ e2
  · have hk : ((e2 - e1).toNat : ℤ) = e2 - e1 := Int.toNat_of_nonneg (by omega)
    have hzp : (10 : ℚ) ^ ((e2 - e1).toNat : ℕ) = (10 : ℚ) ^ ((e2 - e1) : ℤ) := by
      rw [← zpow_natCast (10 : ℚ) (e2 - e1).toNat, hk]
    rw [if_pos h, beq_iff_eq, aux, ← hzp]
    constructor
    · intro heq; exact_mod_cast heq
    · intro heq; exact_mod_cast heq
  · have hk : ((e1 - e2).toNat : ℤ) = e1 - e2 := Int.toNat_of_nonneg (by omega)
    have hzp : (10 : ℚ) ^ ((e1 - e2).toNat : ℕ) = (10 : ℚ) ^ ((e1 - e2) : ℤ) := by
      rw [← zpow_natCast (10 : ℚ) (e1 - e2).toNat, hk]
    rw [if_neg h, beq_iff_eq]
    conv_rhs => rw [eq_comm]
    rw [aux, ← hzp]
    constructor
    · intro heq; exact_mod_cast heq
    · intro heq; exact_mod_cast heq

theorem jsSameValueZero_iff_tok (a b : Json) :
    jsSameValueZero a b = true ↔ ∃ t, svzTok a = some t ∧ svzTok b = some t := by
  cases a <;> cases b <;>
    simp [jsSameValueZero, svzTok, numValEq_iff, beq_iff_eq] <;>
    exact eq_comm

theorem keyEqO_iff_tok (k1 k2 : Option Json) :
    keyEqO k1 k2 = true ↔ ∃ t, keyTok k1 = some t ∧ keyTok k2 = some t := by
  cases k1 with
  | none =>
    cases k2 with
    | none => simp [keyEqO, keyTok]
    | some j =>
      simp only [keyEqO, keyTok]
      cases h : svzTok j <;> simp [h]
  | some j1 =>
    cases k2 with
    | none =>
      simp only [keyEqO, keyTok]
      cases h : svzTok j1 <;> simp [h]
    | some j2 =>
      simp only [keyEqO, keyTok]
      rw [jsSameValueZero_iff_tok]
      constructor
      · rintro ⟨t, h1, h2⟩
        exact ⟨some t, by simp [h1], by simp [h2]⟩
      · rintro ⟨t, h1, h2⟩
        rcases Option.map_eq_some'.mp h1 with ⟨u1, hu1, hts⟩
        rcases Option.map_eq_some'.mp h2 with ⟨u2, hu2, hts2⟩
        rw [← hts] at hts2
        injection hts2 with he
        exact ⟨u1, hu1, he ▸ hu2⟩

theorem keyEqO_symm (k1 k2 : Option Json) : keyEqO k1 k2 = keyEqO k2 k1 := by
  cases h1 : keyEqO k1 k2 <;> cases h2 : keyEqO k2 k1 <;> try rfl
  · rcases (keyEqO_iff_tok k2 k1).mp h2 with ⟨t, ha, hb⟩
    have h3 := (keyEqO_iff_tok k1 k2).mpr ⟨t, hb, ha⟩
    rw [h1] at h3
    exact h3
  · rcases (keyEqO_iff_tok k1 k2).mp h1 with ⟨t, ha, hb⟩
    have h3 := (keyEqO_iff_tok k2 k1).mpr ⟨t, hb, ha⟩
    rw [h2] at h3
    exact h3.symm

theorem keyEqO_trans {k1 k2 k3 : Option Json} (h12 : keyEqO k1 k2 = true)
    (h23 : keyEqO k2 k3 = true) : keyEqO k1 k3 = true := by
  rcases (keyEqO_iff_tok k1 k2).mp h12 with ⟨t, h1, h2⟩
  rcases (keyEqO_iff_tok k2 k3).mp h23 with ⟨t', h2', h3⟩
  rw [h2] at h2'
  injection h2' with he
  subst he
  exact (keyEqO_iff_tok k1 k3).mpr ⟨t, h1, h3⟩

theorem mapGet_mapSet (m : List (Option Json × Verdict)) (kk k : Option Json)
    (v : Verdict) :
    mapGet (mapSet m kk v) k = if keyEqO kk k then some v else mapGet m k := by
  induction m with
  | nil => rfl
  | cons hd tl ih =>
    obtain ⟨k', v'⟩ := hd
    by_cases h1 : keyEqO k' kk = true
    · simp only [mapSet, h1, if_true]
      by_cases h2 : keyEqO kk k = true
      · have h3 : keyEqO k' k = true := keyEqO_trans h1 h2
        simp [mapGet, h3, h2]
      · have h3 : keyEqO k' k = false := by
          cases h4 : keyEqO k' k
          · rfl
          · have h5 : keyEqO kk k = true := by
              rw [keyEqO_symm] at h1
              exact keyEqO_trans h1 h4
            exact absurd h5 h2
        simp [mapGet, h3, h2]
    · have h1' : keyEqO k' kk = false := by
        cases h : keyEqO k' kk
        · rfl
        · exact absurd h h1
      simp only [mapSet, h1', Bool.false_eq_true, if_false]
      by_cases h3 : keyEqO k' k = true
      · have h4 : keyEqO kk k = false := by
          cases h5 : keyEqO kk k
          · rfl
          · rw [keyEqO_symm kk k] at h5
            have h6 : keyEqO k' kk = true := keyEqO_trans h3 h5
            rw [h6] at h1'
            exact absurd h1' (by simp)
        simp [mapGet, h3, h4]
      · have h3' : keyEqO k' k = false := by
          cases h : keyEqO k' k
          · rfl
          · exact absurd h h3
        simp [mapGet, h3', ih]

theorem mapGet_fold_index (k : Int) :
    ∀ (elems : List Json) (m : List (Option Json × Verdict)),
    mapGet (elems.foldl (fun m el => mapSet m (jsField el "index") (mkVerdict el)) m)
        (some (.num k 0))
      = elems.foldl (fun acc el => if elKeyMatches el k then some (mkVerdict el) else acc)
          (mapGet m (some (.num k 0))) := by
  intro elems
  induction elems with
  | nil => intro m; rfl
  | cons el rest ih =>
    intro m
    simp only [List.foldl_cons]
    rw [ih]
    congr 1
    rw [mapGet_mapSet]
    rfl

theorem parseResponse_length (text : String) (n : Nat) :
    (parseResponse text n).length = n := by
  unfold parseResponse parseResponseCore
  cases hx : extractArr text with
  | none => dsimp only; exact List.length_replicate n dfltVerdict
  | some sub =>
    dsimp only
    cases hp : parseJson sub with
    | none => dsimp only; exact List.length_replicate n dfltVerdict
    | some j =>
      cases j with
      | arr elems =>
        dsimp only
        by_cases h : elems.any isNullJson = true
        · rw [if_pos h]; exact List.length_replicate n dfltVerdict
        · rw [if_neg h, List.length_map, List.length_range]
      | null => dsimp only; exact List.length_replicate n dfltVerdict
      | bool b => dsimp only; exact List.length_replicate n dfltVerdict
      | num m e => dsimp only; exact List.length_replicate n dfltVerdict
      | str s => dsimp only; exact List.length_replicate n dfltVerdict
      | obj fields => dsimp only; exact List.length_replicate n dfltVerdict

/-- Claim C5, counterexample to the claim as stated: on a response
that contains a well-formed array followed by further text and a later
`]`, the code's greedy extraction (first `[` to last `]`) fails to
parse and defaults everything to PASS, whereas extracting the first
bracketed array substring (the claim's words, modelled by
`parseResponseSpec`) yields the FAIL verdict. -/
theorem claim_C5_cex :
    parseResponse "[\x7b\"index\":1,\"verdict\":\"FAIL\",\"reason\":\"bad\"\x7d] and [1]" 1
        = [dfltVerdict]
    ∧ parseResponseSpec "[\x7b\"index\":1,\"verdict\":\"FAIL\",\"reason\":\"bad\"\x7d] and [1]" 1
        = [⟨.str "FAIL", .str "bad"⟩]
    ∧ dfltVerdict ≠ (⟨.str "FAIL", .str "bad"⟩ : Verdict) := by
  refine ⟨rfl, rfl, ?_⟩
  intro h
  simp [dfltVerdict, Verdict.mk.injEq] at h

/-- Claim C5 (amended): response parsing extracts the substring from
the first `[` to the last `]` of the response text (the greedy regex
match) and always returns exactly `n` verdicts: when there is no such
substring, the substring fails to parse as JSON, the payload is not an
array, or a `null` element makes the indexing loop throw, all `n`
items default to PASS; otherwise an element whose `index` field equals
the number `i + 1` maps to input position `i` (the last such element
winning), and positions with no matching index default to PASS. -/
theorem claim_C5 (text : String) (n : Nat) :
    (parseResponse text n).length = n
    ∧ (extractArr text = none →
        parseResponse text n = List.replicate n dfltVerdict)
    ∧ (∀ sub, extractArr text = some sub → parseJson sub = none →
        parseResponse text n = List.replicate n dfltVerdict)
    ∧ (∀ sub j, extractArr text = some sub → parseJson sub = some j →
        (∀ elems, j ≠ .arr elems) →
        parseResponse text n = List.replicate n dfltVerdict)
    ∧ (∀ sub elems, extractArr text = some sub →
        parseJson sub = some (.arr elems) → elems.any isNullJson = true →
        parseResponse text n = List.replicate n dfltVerdict)
    ∧ (∀ sub elems (i : Nat), extractArr text = some sub →
        parseJson sub = some (.arr elems) → elems.any isNullJson = false →
        i < n →
        (parseResponse text n)[i]?
          = some ((lastIndexMatch elems (Int.ofNat i + 1)).getD dfltVerdict)) := by
  refine ⟨parseResponse_length text n, ?_, ?_, ?_, ?_, ?_⟩
  · intro hx
    unfold parseResponse parseResponseCore
    rw [hx]
  · intro sub hx hp
    unfold parseResponse parseResponseCore
    rw [hx]
    dsimp only
    rw [hp]
  · intro sub j hx hp hnotarr
    unfold parseResponse parseResponseCore
    rw [hx]
    dsimp only
    rw [hp]
    cases j with
    | arr elems => exact absurd rfl (hnotarr elems)
    | null => rfl
    | bool b => rfl
    | num m e => rfl
    | str s => rfl
    | obj fields => rfl
  · intro sub elems hx hp hnull
    unfold parseResponse parseResponseCore
    rw [hx]
    dsimp only
    rw [hp]
    dsimp only
    rw [if_pos hnull]
  · intro sub elems i hx hp hnull hi
    unfold parseResponse parseResponseCore
    rw [hx]
    dsimp only
    rw [hp]
    dsimp only
    rw [if_neg (by rw [hnull]; exact Bool.false_ne_true)]
    rw [List.getElem?_map]
    simp only [List.getElem?_range, hi, if_pos, Option.map_some']
    rw [mapGet_fold_index]
    rfl

/-- Claim C5, witness: a response with prose around one array whose
element carries index 2 — the hypotheses of the mapping clause hold
concretely and position 2 receives the FAIL verdict. -/
theorem claim_C5_witness :
    (extractArr "ok [\x7b\"index\":2,\"verdict\":\"FAIL\",\"reason\":\"r\"\x7d] end"
        = some "[\x7b\"index\":2,\"verdict\":\"FAIL\",\"reason\":\"r\"\x7d]"
      ∧ parseJson "[\x7b\"index\":2,\"verdict\":\"FAIL\",\"reason\":\"r\"\x7d]"
          = some (.arr [.obj [("index", .num 2 0), ("verdict", .str "FAIL"),
              ("reason", .str "r")]])
      ∧ ([Json.obj [("index", Json.num 2 0), ("verdict", Json.str "FAIL"),
          ("reason", Json.str "r")]].any isNullJson) = false
      ∧ 1 < 2)
    ∧ (parseResponse "ok [\x7b\"index\":2,\"verdict\":\"FAIL\",\"reason\":\"r\"\x7d] end" 2)[1]?
        = some (⟨.str "FAIL", .str "r"⟩ : Verdict) := by
  refine ⟨⟨rfl, rfl, rfl, by decide⟩, ?_⟩
  have h := (claim_C5 "ok [\x7b\"index\":2,\"verdict\":\"FAIL\",\"reason\":\"r\"\x7d] end" 2).2.2.2.2.2
      "[\x7b\"index\":2,\"verdict\":\"FAIL\",\"reason\":\"r\"\x7d]"
      [Json.obj [("index", Json.num 2 0), ("verdict", Json.str "FAIL"),
        ("reason", Json.str "r")]]
      1 rfl rfl rfl (by decide)
  rw [h]
  rfl

/-! ### Lemmas about title normalization -/

theorem jsToLowerChar_idem (c : Char) :
    jsToLowerChar (jsToLowerChar c) = jsToLowerChar c := by
  cases hf : lowerPairs.find? (fun p => p.1 == c) with
  | none =>
    have h1 : jsToLowerChar c = c := by unfold jsToLowerChar; rw [hf]
    rw [h1, h1]
  | some p =>
    have h1 : jsToLowerChar c = p.2 := by unfold jsToLowerChar; rw [hf]
    have hp : p ∈ lowerPairs := List.mem_of_find?_eq_some hf
    have hfix : ∀ p ∈ lowerPairs, ∀ q ∈ lowerPairs, (q.1 == p.2) = false := by decide
    have h2 : lowerPairs.find? (fun q => q.1 == p.2) = none :=
      List.find?_eq_none.mpr (fun q hq => by simp [hfix p hp q hq])
    have h3 : jsToLowerChar p.2 = p.2 := by unfold jsToLowerChar; rw [h2]
    rw [h1, h3]

theorem jsTrim_eq_trimEnd_dropWs (l : List Char) : jsTrim l = trimEnd (dropWs l) := rfl

theorem dropWs_cons_ws {c : Char} (h : isJsWs c = true) (l : List Char) :
    dropWs (c :: l) = dropWs l := by
  simp [dropWs, List.dropWhile_cons, h]

theorem dropWs_cons_not {c : Char} (h : isJsWs c = false) (l : List Char) :
    dropWs (c :: l) = c :: l := by
  simp [dropWs, List.dropWhile_cons, h]

theorem dropWhile_allNot {p : Char → Bool} {m : List Char}
    (h : ∀ c ∈ m, p c = false) : m.dropWhile p = m := by
  cases m with
  | nil => rfl
  | cons d t =>
    rw [List.dropWhile_cons_of_neg]
    simp [h d (by simp)]

theorem dropWhile_head_false {p : Char → Bool} :
    ∀ (l : List Char) (s : Char) (r' : List Char),
    l.dropWhile p = s :: r' → p s = false := by
  intro l
  induction l with
  | nil => intro s r' h; cases h
  | cons a t ih =>
    intro s r' h
    by_cases hp : p a = true
    · rw [List.dropWhile_cons_of_pos hp] at h
      exact ih s r' h
    · rw [List.dropWhile_cons_of_neg hp] at h
      injection h with h1 _
      subst h1
      exact Bool.not_eq_true _ ▸ (by simpa using hp)

theorem trimEnd_eq_nil_iff (m : List Char) :
    trimEnd m = [] ↔ ∀ c ∈ m, isJsWs c = true := by
  unfold trimEnd
  rw [List.reverse_eq_nil_iff, List.dropWhile_eq_nil_iff]
  constructor
  · intro h c hc; exact h c (List.mem_reverse.mpr hc)
  · intro h c hc; exact h c (List.mem_reverse.mp hc)

theorem trimEnd_append {a m : List Char} (h : trimEnd m ≠ []) :
    trimEnd (a ++ m) = a ++ trimEnd m := by
  unfold trimEnd at h ⊢
  rw [List.reverse_append, List.dropWhile_append]
  have hne : (m.reverse.dropWhile isJsWs).isEmpty = false := by
    cases hd : m.reverse.dropWhile isJsWs with
    | nil => rw [hd] at h; simp at h
    | cons x t => rfl
  rw [hne]
  simp

theorem trimEnd_allNonWs {m : List Char} (h : ∀ c ∈ m, isJsWs c = false) :
    trimEnd m = m := by
  unfold trimEnd
  rw [dropWhile_allNot (fun c hc => h c (List.mem_reverse.mp hc))]
  exact List.reverse_reverse m

theorem trimEnd_append_allWs {w r : List Char} (h : ∀ c ∈ r, isJsWs c = true) :
    trimEnd (w ++ r) = trimEnd w := by
  unfold trimEnd
  rw [List.reverse_append, List.dropWhile_append]
  have : r.reverse.dropWhile isJsWs = [] :=
    List.dropWhile_eq_nil_iff.mpr (fun c hc => h c (List.mem_reverse.mp hc))
  rw [this]
  rfl

theorem trimEnd_cons_nonws {d : Char} (r2' : List Char) (hd : isJsWs d = false) :
    ∃ t, trimEnd (d :: r2') = d :: t := by
  by_cases h : trimEnd r2' = []
  · refine ⟨[], ?_⟩
    have hall : ∀ c ∈ r2', isJsWs c = true := (trimEnd_eq_nil_iff r2').mp h
    have := trimEnd_append_allWs (w := [d]) (r := r2') hall
    rw [trimEnd_allNonWs (m := [d]) (by simpa using hd)] at this
    simpa using this
  · refine ⟨trimEnd r2', ?_⟩
    have := trimEnd_append (a := [d]) (m := r2') h
    simpa using this

theorem collapseGo_cons_nonws {c : Char} (h : isJsWs c = false) (b : Bool)
    (rest : List Char) : collapseGo b (c :: rest) = c :: collapseGo false rest := by
  simp [collapseGo, h]

theorem collapseGo_cons_ws_false {s : Char} (h : isJsWs s = true)
    (rest : List Char) : collapseGo false (s :: rest) = ' ' :: collapseGo true rest := by
  simp [collapseGo, h]

theorem collapseGo_cons_ws_true {s : Char} (h : isJsWs s = true)
    (rest : List Char) : collapseGo true (s :: rest) = collapseGo true rest := by
  simp [collapseGo, h]

theorem collapseGo_nonws (w : List Char) (hw : ∀ c ∈ w, isJsWs c = false)
    (l : List Char) (b : Bool) :
    collapseGo b (w ++ l) = w ++ collapseGo (if w.isEmpty then b else false) l := by
  induction w generalizing b with
  | nil => simp
  | cons c w' ih =>
    have hc : isJsWs c = false := hw c (by simp)
    rw [List.cons_append, collapseGo_cons_nonws hc]
    rw [ih (fun x hx => hw x (by simp [hx])) false]
    cases w' with
    | nil => simp
    | cons c2 w'' => simp

theorem collapseGo_allNonWs_id (w : List Char) (hw : ∀ c ∈ w, isJsWs c = false)
    (b : Bool) : collapseGo b w = w := by
  have h := collapseGo_nonws w hw [] b
  have h0 : collapseGo (if w.isEmpty then b else false) ([] : List Char) = [] := by
    cases hw2 : w.isEmpty <;> rfl
  rw [List.append_nil] at h
  rw [h0, List.append_nil] at h
  exact h

theorem collapseGo_true_ws_run (u : List Char) (hu : ∀ c ∈ u, isJsWs c = true)
    (l : List Char) : collapseGo true (u ++ l) = collapseGo true l := by
  induction u with
  | nil => rfl
  | cons s u' ih =>
    have hs : isJsWs s = true := hu s (by simp)
    rw [List.cons_append, collapseGo_cons_ws_true hs]
    exact ih (fun x hx => hu x (by simp [hx]))

theorem collapseGo_false_ws_run {s : Char} (u : List Char)
    (hs : isJsWs s = true) (hu : ∀ c ∈ u, isJsWs c = true) (l : List Char) :
    collapseGo false (s :: (u ++ l)) = ' ' :: collapseGo true l := by
  rw [collapseGo_cons_ws_false hs]
  rw [collapseGo_true_ws_run u hu l]

theorem collapseGo_true_nonws_head {d : Char} (hd : isJsWs d = false)
    (t : List Char) : collapseGo true (d :: t) = d :: collapseGo false t := by
  simp [collapseGo, hd]

theorem splitGo_cons_nonws {c : Char} (h : isJsWs c = false) (cur l : List Char) :
    splitGo cur (c :: l) = splitGo (c :: cur) l := by
  simp [splitGo, h]

theorem splitGo_nonws_accum (w : List Char) (hw : ∀ c ∈ w, isJsWs c = false) :
    ∀ (cur l : List Char), splitGo cur (w ++ l) = splitGo (w.reverse ++ cur) l := by
  induction w with
  | nil => intro cur l; rfl
  | cons c w' ih =>
    intro cur l
    have hc : isJsWs c = false := hw c (by simp)
    rw [List.cons_append, splitGo_cons_nonws hc]
    rw [ih (fun x hx => hw x (by simp [hx])) (c :: cur) l]
    simp

theorem splitGo_nil_allWs (m : List Char) (hm : ∀ c ∈ m, isJsWs c = true) :
    splitGo [] m = [] := by
  induction m with
  | nil => rfl
  | cons s m' ih =>
    have hs : isJsWs s = true := hm s (by simp)
    simp only [splitGo, hs, if_true, List.isEmpty_nil]
    exact ih (fun x hx => hm x (by simp [hx]))

theorem splitGo_nil_ws_skip (u : List Char) (hu : ∀ c ∈ u, isJsWs c = true)
    (m : List Char) : splitGo [] (u ++ m) = splitGo [] m := by
  induction u with
  | nil => rfl
  | cons s u' ih =>
    have hs : isJsWs s = true := hu s (by simp)
    simp only [List.cons_append, splitGo, hs, if_true, List.isEmpty_nil]
    exact ih (fun x hx => hu x (by simp [hx]))

theorem splitGo_ws_cons_ne {cur : List Char} (hne : cur ≠ []) {s : Char}
    (hs : isJsWs s = true) (l : List Char) :
    splitGo cur (s :: l) = cur.reverse :: splitGo [] l := by
  have h : cur.isEmpty = false := by cases cur with
    | nil => exact absurd rfl hne
    | cons a t => rfl
  simp [splitGo, hs, h]

theorem splitGo_allWs_of_ne {cur : List Char} (hne : cur ≠ []) {m : List Char}
    (hm : ∀ c ∈ m, isJsWs c = true) : splitGo cur m = [cur.reverse] := by
  cases m with
  | nil =>
    have h : cur.isEmpty = false := by cases cur with
      | nil => exact absurd rfl hne
      | cons a t => rfl
    simp [splitGo, h]
  | cons s m' =>
    have hs : isJsWs s = true := hm s (by simp)
    rw [splitGo_ws_cons_ne hne hs m']
    rw [splitGo_nil_allWs m' (fun x hx => hm x (by simp [hx]))]

theorem splitGo_ne_nil : ∀ (m cur : List Char), cur ≠ [] → splitGo cur m ≠ [] := by
  intro m
  induction m with
  | nil =>
    intro cur hne
    have h : cur.isEmpty = false := by cases cur with
      | nil => exact absurd rfl hne
      | cons a t => rfl
    simp [splitGo, h]
  | cons c m' ih =>
    intro cur hne
    cases hc : isJsWs c with
    | true =>
      rw [splitGo_ws_cons_ne hne hc m']
      simp
    | false =>
      simp only [splitGo, hc, Bool.false_eq_true, if_false]
      exact ih (c :: cur) (by simp)

theorem joinWords_cons_ne (w : List Char) {ws : List (List Char)} (hne : ws ≠ []) :
    joinWords (w :: ws) = w ++ ' ' :: joinWords ws := by
  cases ws with
  | nil => exact absurd rfl hne
  | cons w2 ws' => rfl

theorem splitWsWords_allNonWs (w : List Char) (hw : ∀ c ∈ w, isJsWs c = false)
    (hne : w ≠ []) : splitWsWords w = [w] := by
  unfold splitWsWords
  have h := splitGo_nonws_accum w hw [] []
  rw [List.append_nil, List.append_nil] at h
  rw [h]
  have hrev : w.reverse.isEmpty = false := by
    cases hw2 : w.reverse with
    | nil => exact absurd (List.reverse_eq_nil_iff.mp hw2) hne
    | cons a t => rfl
  simp [splitGo, hrev]

theorem collapse_trim_bounded : ∀ (N : Nat) (l : List Char), l.length ≤ N →
    collapseWs (jsTrim l) = joinWords (splitWsWords l) := by
  intro N
  induction N with
  | zero =>
    intro l hl
    have h0 : l = [] := List.eq_nil_of_length_eq_zero (Nat.le_zero.mp hl)
    subst h0
    rfl
  | succ N ih =>
    intro l hl
    cases l with
    | nil => rfl
    | cons c cs =>
      cases hc : isJsWs c with
      | true =>
        have h1 : jsTrim (c :: cs) = jsTrim cs := by
          rw [jsTrim_eq_trimEnd_dropWs, jsTrim_eq_trimEnd_dropWs, dropWs_cons_ws hc]
        have h2 : splitWsWords (c :: cs) = splitWsWords cs := by
          unfold splitWsWords
          simp [splitGo, hc]
        rw [h1, h2]
        refine ih cs ?_
        simp only [List.length_cons] at hl
        omega
      | false =>
        have hpc : (fun x => !isJsWs x) c = true := by simp [hc]
        set w := (c :: cs).takeWhile (fun x => !isJsWs x) with hw_def
        set r := (c :: cs).dropWhile (fun x => !isJsWs x) with hr_def
        have hsplit : w ++ r = c :: cs := List.takeWhile_append_dropWhile _ _
        have hw_nonws : ∀ x ∈ w, isJsWs x = false := by
          intro x hx
          have := List.mem_takeWhile_imp hx
          simpa using this
        have hw_cons : w = c :: cs.takeWhile (fun x => !isJsWs x) := by
          rw [hw_def]
          exact List.takeWhile_cons_of_pos hpc
        have hw_ne : w ≠ [] := by rw [hw_cons]; simp
        have hw_rev_ne : w.reverse ≠ [] := by
          intro hcon
          exact hw_ne (List.reverse_eq_nil_iff.mp hcon)
        cases hr : r with
        | nil =>
          have hl_eq : c :: cs = w := by rw [← hsplit, hr, List.append_nil]
          rw [hl_eq]
          rw [jsTrim_eq_trimEnd_dropWs]
          have hdw : dropWs w = w := by
            rw [hw_cons]
            exact dropWs_cons_not hc _
          rw [hdw, trimEnd_allNonWs hw_nonws]
          unfold collapseWs
          rw [collapseGo_allNonWs_id w hw_nonws]
          rw [splitWsWords_allNonWs w hw_nonws hw_ne]
          rfl
        | cons s r' =>
          have hdr : (c :: cs).dropWhile (fun x => !isJsWs x) = s :: r' := by
            rw [← hr_def]; exact hr
          have hs : isJsWs s = true := by
            have := dropWhile_head_false (c :: cs) s r' hdr
            simpa using this
          set u := r'.takeWhile isJsWs with hu_def
          set r2 := r'.dropWhile isJsWs with hr2_def
          have hur : u ++ r2 = r' := List.takeWhile_append_dropWhile _ _
          have hu_ws : ∀ x ∈ u, isJsWs x = true := by
            intro x hx
            exact List.mem_takeWhile_imp hx
          cases hr2 : r2 with
          | nil =>
            have hr'_eq : r' = u := by rw [← hur, hr2, List.append_nil]
            have hr_ws : ∀ x ∈ (s :: r'), isJsWs x = true := by
              intro x hx
              rcases List.mem_cons.mp hx with h | h
              · subst h; exact hs
              · rw [hr'_eq] at h; exact hu_ws x h
            rw [← hsplit, hr]
            rw [jsTrim_eq_trimEnd_dropWs]
            have hdw : dropWs (w ++ (s :: r')) = w ++ (s :: r') := by
              rw [hw_cons, List.cons_append]
              exact dropWs_cons_not hc _
            rw [hdw, trimEnd_append_allWs hr_ws, trimEnd_allNonWs hw_nonws]
            unfold collapseWs
            rw [collapseGo_allNonWs_id w hw_nonws]
            unfold splitWsWords
            rw [splitGo_nonws_accum w hw_nonws [] _, List.append_nil]
            rw [splitGo_allWs_of_ne hw_rev_ne hr_ws]
            rw [List.reverse_reverse]
            rfl
          | cons d r2' =>
            have hdd : r'.dropWhile isJsWs = d :: r2' := by
              rw [← hr2_def]; exact hr2
            have hd : isJsWs d = false := dropWhile_head_false r' d r2' hdd
            have htr2_ne : trimEnd (d :: r2') ≠ [] := by
              intro hcontra
              have := (trimEnd_eq_nil_iff _).mp hcontra d (by simp)
              rw [hd] at this
              cases this
            obtain ⟨t, ht⟩ := trimEnd_cons_nonws r2' hd
            have hlen : (d :: r2').length ≤ N := by
              have h1 : w.length + r.length = cs.length + 1 := by
                rw [← List.length_append, hsplit]
                simp
              have h2 : 1 ≤ w.length := by
                rw [hw_cons]; simp
              have h3 : r2.length ≤ r'.length := by
                rw [hr2_def]
                exact (List.dropWhile_sublist _).length_le
              have h4 : r.length = r'.length + 1 := by rw [hr]; simp
              rw [hr2] at h3
              simp only [List.length_cons] at hl ⊢
              simp only [List.length_cons] at h3 h4
              omega
            have hIH := ih (d :: r2') hlen
            rw [← hsplit, hr, ← hur, hr2]
            rw [jsTrim_eq_trimEnd_dropWs]
            have hdw : dropWs (w ++ (s :: (u ++ (d :: r2')))) = w ++ (s :: (u ++ (d :: r2'))) := by
              rw [hw_cons, List.cons_append]
              exact dropWs_cons_not hc _
            rw [hdw]
            have hassoc : w ++ (s :: (u ++ (d :: r2'))) = (w ++ s :: u) ++ (d :: r2') := by
              simp
            rw [hassoc, trimEnd_append htr2_ne]
            have hassoc2 : (w ++ s :: u) ++ trimEnd (d :: r2')
                = w ++ (s :: (u ++ trimEnd (d :: r2'))) := by
              simp
            rw [hassoc2]
            unfold collapseWs
            rw [collapseGo_nonws w hw_nonws _ false, ite_self]
            rw [collapseGo_false_ws_run u hs hu_ws (trimEnd (d :: r2'))]
            rw [ht, collapseGo_true_nonws_head hd t]
            have hjt : jsTrim (d :: r2') = d :: t := by
              rw [jsTrim_eq_trimEnd_dropWs, dropWs_cons_not hd, ht]
            have hstep : (d : Char) :: collapseGo false t = collapseWs (jsTrim (d :: r2')) := by
              rw [hjt]
              unfold collapseWs
              rw [collapseGo_cons_nonws hd]
            rw [hstep, hIH]
            unfold splitWsWords
            rw [List.append_assoc w (s :: u) (d :: r2'), List.cons_append]
            rw [splitGo_nonws_accum w hw_nonws [] _, List.append_nil]
            rw [splitGo_ws_cons_ne hw_rev_ne hs]
            rw [splitGo_nil_ws_skip u hu_ws]
            rw [List.reverse_reverse]
            have hsne : splitGo [] (d :: r2') ≠ [] := by
              rw [splitGo_cons_nonws hd]
              exact splitGo_ne_nil r2' [d] (by simp)
            rw [joinWords_cons_ne w hsne]

theorem collapse_trim_eq_joinWords (l : List Char) :
    collapseWs (jsTrim l) = joinWords (splitWsWords l) :=
  collapse_trim_bounded l.length l (le_refl _)

theorem normalizeTitle_eq_joinWords (t : String) :
    normalizeTitle t = String.mk (joinWords (lowerWords t)) := by
  unfold normalizeTitle lowerWords
  exact congrArg String.mk (collapse_trim_eq_joinWords _)

theorem splitGo_chars {P : Char → Prop} :
    ∀ (m cur : List Char), (∀ c ∈ cur, P c) → (∀ c ∈ m, P c) →
    ∀ w ∈ splitGo cur m, ∀ c ∈ w, P c := by
  intro m
  induction m with
  | nil =>
    intro cur hcur _ w hw c hc
    cases cur with
    | nil => simp [splitGo] at hw
    | cons a t =>
      simp only [splitGo, List.isEmpty_cons, Bool.false_eq_true, if_false,
        List.mem_singleton] at hw
      subst hw
      exact hcur c (List.mem_reverse.mp hc)
  | cons a m' ih =>
    intro cur hcur hm w hw c hc
    cases ha : isJsWs a with
    | false =>
      rw [splitGo_cons_nonws ha] at hw
      refine ih (a :: cur) ?_ (fun x hx => hm x (by simp [hx])) w hw c hc
      intro x hx
      rcases List.mem_cons.mp hx with h | h
      · subst h; exact hm _ (by simp)
      · exact hcur x h
    | true =>
      cases cur with
      | nil =>
        simp only [splitGo, ha, if_true, List.isEmpty_nil] at hw
        exact ih [] (by simp) (fun x hx => hm x (by simp [hx])) w hw c hc
      | cons c0 t =>
        rw [splitGo_ws_cons_ne (by simp) ha] at hw
        rcases List.mem_cons.mp hw with h | h
        · subst h
          exact hcur c (List.mem_reverse.mp hc)
        · exact ih [] (by simp) (fun x hx => hm x (by simp [hx])) w h c hc

theorem splitGo_words_shape :
    ∀ (m cur : List Char), (∀ c ∈ cur, isJsWs c = false) →
    ∀ w ∈ splitGo cur m, w ≠ [] ∧ ∀ c ∈ w, isJsWs c = false := by
  intro m
  induction m with
  | nil =>
    intro cur hcur w hw
    cases cur with
    | nil => simp [splitGo] at hw
    | cons a t =>
      simp only [splitGo, List.isEmpty_cons, Bool.false_eq_true, if_false,
        List.mem_singleton] at hw
      subst hw
      exact ⟨by simp, fun c hc => hcur c (List.mem_reverse.mp hc)⟩
  | cons a m' ih =>
    intro cur hcur w hw
    cases ha : isJsWs a with
    | false =>
      rw [splitGo_cons_nonws ha] at hw
      refine ih (a :: cur) ?_ w hw
      intro x hx
      rcases List.mem_cons.mp hx with h | h
      · subst h; exact ha
      · exact hcur x h
    | true =>
      cases cur with
      | nil =>
        simp only [splitGo, ha, if_true, List.isEmpty_nil] at hw
        exact ih [] (by simp) w hw
      | cons c0 t =>
        rw [splitGo_ws_cons_ne (by simp) ha] at hw
        rcases List.mem_cons.mp hw with h | h
        · subst h
          exact ⟨by simp, fun c hc => hcur c (List.mem_reverse.mp hc)⟩
        · exact ih [] (by simp) w h

theorem map_id_of_fixed {f : Char → Char} :
    ∀ {m : List Char}, (∀ x ∈ m, f x = x) → m.map f = m := by
  intro m
  induction m with
  | nil => intro _; rfl
  | cons a t ih =>
    intro h
    simp only [List.map_cons]
    rw [h a (by simp), ih (fun x hx => h x (by simp [hx]))]

theorem map_joinWords_fixed {f : Char → Char} (hf : f ' ' = ' ') :
    ∀ (W : List (List Char)), (∀ w ∈ W, ∀ c ∈ w, f c = c) →
    (joinWords W).map f = joinWords W := by
  intro W
  induction W with
  | nil => intro _; rfl
  | cons w ws ih =>
    intro h
    cases ws with
    | nil => exact map_id_of_fixed (h w (by simp))
    | cons w2 ws' =>
      rw [joinWords_cons_ne w (by simp)]
      rw [List.map_append, List.map_cons, hf]
      rw [map_id_of_fixed (h w (by simp))]
      rw [ih (fun x hx => h x (by simp [hx]))]

theorem splitWsWords_joinWords :
    ∀ (W : List (List Char)),
    (∀ w ∈ W, w ≠ [] ∧ ∀ c ∈ w, isJsWs c = false) →
    splitWsWords (joinWords W) = W := by
  intro W
  induction W with
  | nil => intro _; rfl
  | cons w ws ih =>
    intro h
    obtain ⟨hne, hnws⟩ := h w (by simp)
    cases ws with
    | nil => exact splitWsWords_allNonWs w hnws hne
    | cons w2 ws' =>
      rw [joinWords_cons_ne w (by simp)]
      unfold splitWsWords
      rw [splitGo_nonws_accum w hnws [] _, List.append_nil]
      have hwsrev : w.reverse ≠ [] := fun hcon => hne (List.reverse_eq_nil_iff.mp hcon)
      rw [splitGo_ws_cons_ne hwsrev (by decide : isJsWs ' ' = true)]
      rw [List.reverse_reverse]
      have hrec := ih (fun x hx => h x (by simp [hx]))
      unfold splitWsWords at hrec
      rw [hrec]

/-- Claim C9: `normalizeTitle` is idempotent. -/
theorem claim_C9 (t : String) :
    normalizeTitle (normalizeTitle t) = normalizeTitle t := by
  rw [normalizeTitle_eq_joinWords t]
  have hfixed : ∀ w ∈ lowerWords t, ∀ c ∈ w, jsToLowerChar c = c := by
    intro w hw c hc
    refine splitGo_chars (P := fun c => jsToLowerChar c = c) _ [] (by simp) ?_ w hw c hc
    intro x hx
    rcases List.mem_map.mp hx with ⟨y, _, hy⟩
    rw [← hy]
    exact jsToLowerChar_idem y
  have hshape : ∀ w ∈ lowerWords t, w ≠ [] ∧ ∀ c ∈ w, isJsWs c = false := by
    intro w hw
    exact splitGo_words_shape _ [] (by simp) w hw
  unfold normalizeTitle
  have hdata : (String.mk (joinWords (lowerWords t))).data = joinWords (lowerWords t) := rfl
  rw [hdata]
  rw [map_joinWords_fixed (by decide) (lowerWords t) hfixed]
  rw [collapse_trim_eq_joinWords]
  rw [splitWsWords_joinWords (lowerWords t) hshape]

/-- Claim C3: the content hash is `hash(normalizedURL + "|" +
normalizedTitle)`; it is invariant when the two URLs parse and differ
only in the stripped `utm_*` tracking parameters and the two titles
have the same lowercased word sequence (i.e. differ only by casing and
leading/trailing/internal whitespace). -/
theorem claim_C3 (hs : String → String) (i1 i2 : NewsItem) (p1 p2 : UrlParts)
    (h1 : parseUrlModel i1.url = some p1) (h2 : parseUrlModel i2.url = some p2)
    (hq : deleteUtm p1 = deleteUtm p2)
    (ht : lowerWords i1.title = lowerWords i2.title) :
    computeHash hs i1 = computeHash hs i2
    ∧ computeHash hs i1 = hs (normalizeUrl i1.url ++ "|" ++ normalizeTitle i1.title) := by
  refine ⟨?_, rfl⟩
  unfold computeHash
  have hu : normalizeUrl i1.url = normalizeUrl i2.url := by
    unfold normalizeUrl
    rw [h1, h2]
    dsimp only
    rw [hq]
  have htt : normalizeTitle i1.title = normalizeTitle i2.title := by
    rw [normalizeTitle_eq_joinWords, normalizeTitle_eq_joinWords, ht]
  rw [hu, htt]

/-- Claim C3, witness: `https://x.com/a?utm_source=x` with title
`"Hello World"` hashes identically to `https://x.com/a` with title
`" hello   world "`. -/
theorem claim_C3_witness :
    (parseUrlModel "https://x.com/a?utm_source=x"
        = some ⟨"https", "//x.com/a", [("utm_source", "x")], none⟩
      ∧ parseUrlModel "https://x.com/a" = some ⟨"https", "//x.com/a", [], none⟩
      ∧ deleteUtm ⟨"https", "//x.com/a", [("utm_source", "x")], none⟩
          = deleteUtm ⟨"https", "//x.com/a", [], none⟩
      ∧ lowerWords "Hello World" = lowerWords " hello   world ")
    ∧ computeHash (fun s => s) wUtmItem = computeHash (fun s => s) wPlainItem :=
  ⟨⟨by decide, by decide, by decide, by decide⟩,
   (claim_C3 (fun s => s) wUtmItem wPlainItem
      ⟨"https", "//x.com/a", [("utm_source", "x")], none⟩
      ⟨"https", "//x.com/a", [], none⟩
      (by decide) (by decide) (by decide) (by decide)).1⟩

/-- Claim C10: `normalizeUrl` is total — on any input that does not
parse as a URL it returns the input unchanged (so hashing proceeds for
malformed links). -/
theorem claim_C10 (s : String) (h : parseUrlModel s = none) :
    normalizeUrl s = s := by
  unfold normalizeUrl
  rw [h]

/-- Claim C10, witness: `"not a url"` does not parse and passes
through unchanged. -/
theorem claim_C10_witness :
    parseUrlModel "not a url" = none
    ∧ normalizeUrl "not a url" = "not a url" :=
  ⟨by decide, claim_C10 "not a url" (by decide)⟩

/-! ### Lemmas about the collector post-processing -/

theorem insertByDateDesc_perm (x : NewsItem) : ∀ (l : List NewsItem),
    (insertByDateDesc x l).Perm (x :: l) := by
  intro l
  induction l with
  | nil => exact List.Perm.refl _
  | cons y ys ih =>
    unfold insertByDateDesc
    by_cases h : dateKey y < dateKey x
    · rw [if_pos h]
    · rw [if_neg h]
      exact (ih.cons y).trans (List.Perm.swap x y ys)

theorem foldl_insert_perm : ∀ (l acc : List NewsItem),
    (l.foldl (fun acc x => insertByDateDesc x acc) acc).Perm (l ++ acc) := by
  intro l
  induction l with
  | nil => intro acc; simp
  | cons x xs ih =>
    intro acc
    rw [List.foldl_cons]
    refine (ih (insertByDateDesc x acc)).trans ?_
    have h2 := List.Perm.append_left xs (insertByDateDesc_perm x acc)
    exact h2.trans List.perm_middle

theorem sortByDateDesc_perm (l : List NewsItem) : (sortByDateDesc l).Perm l := by
  have h := foldl_insert_perm l []
  rw [List.append_nil] at h
  exact h

theorem insertByDateDesc_pairwise (x : NewsItem) : ∀ (l : List NewsItem),
    List.Pairwise (fun a b => dateKey b ≤ dateKey a) l →
    List.Pairwise (fun a b => dateKey b ≤ dateKey a) (insertByDateDesc x l) := by
  intro l
  induction l with
  | nil => intro _; simp [insertByDateDesc]
  | cons y ys ih =>
    intro hp
    rw [List.pairwise_cons] at hp
    obtain ⟨hy, hys⟩ := hp
    unfold insertByDateDesc
    by_cases h : dateKey y < dateKey x
    · rw [if_pos h]
      refine List.pairwise_cons.mpr ⟨?_, List.pairwise_cons.mpr ⟨hy, hys⟩⟩
      intro b hb
      rcases List.mem_cons.mp hb with hbe | hbm
      · subst hbe; omega
      · have := hy b hbm; omega
    · rw [if_neg h]
      refine List.pairwise_cons.mpr ⟨?_, ih hys⟩
      intro b hb
      have hmem := (insertByDateDesc_perm x ys).mem_iff.mp hb
      rcases List.mem_cons.mp hmem with hbe | hbm
      · subst hbe; omega
      · exact hy b hbm

theorem sortByDateDesc_pairwise (l : List NewsItem) :
    List.Pairwise (fun a b => dateKey b ≤ dateKey a) (sortByDateDesc l) := by
  have haux : ∀ (m acc : List NewsItem),
      List.Pairwise (fun a b => dateKey b ≤ dateKey a) acc →
      List.Pairwise (fun a b => dateKey b ≤ dateKey a)
        (m.foldl (fun acc x => insertByDateDesc x acc) acc) := by
    intro m
    induction m with
    | nil => intro acc h; simpa using h
    | cons x xs ih =>
      intro acc h
      rw [List.foldl_cons]
      exact ih _ (insertByDateDesc_pairwise x acc h)
  exact haux l [] (by simp)

theorem deduplicateByTitleGo_subset :
    ∀ (items : List NewsItem) (seen : List String) (x : NewsItem),
    x ∈ deduplicateByTitleGo seen items → x ∈ items := by
  intro items
  induction items with
  | nil => intro seen x hx; simp [deduplicateByTitleGo] at hx
  | cons item rest ih =>
    intro seen x hx
    cases hcon : seen.contains (normalizeTitle item.title) with
    | true =>
      simp only [deduplicateByTitleGo, hcon, if_true] at hx
      exact List.mem_cons_of_mem item (ih seen x hx)
    | false =>
      simp only [deduplicateByTitleGo, hcon, Bool.false_eq_true, if_false] at hx
      rcases List.mem_cons.mp hx with he | hm
      · subst he; exact List.mem_cons_self _ _
      · exact List.mem_cons_of_mem item (ih _ x hm)

theorem deduplicateByTitleGo_avoid :
    ∀ (items : List NewsItem) (seen : List String) (k : String), k ∈ seen →
    k ∉ (deduplicateByTitleGo seen items).map (fun it => normalizeTitle it.title) := by
  intro items
  induction items with
  | nil => intro seen k _; simp [deduplicateByTitleGo]
  | cons item rest ih =>
    intro seen k hk
    cases hcon : seen.contains (normalizeTitle item.title) with
    | true =>
      simp only [deduplicateByTitleGo, hcon, if_true]
      exact ih seen k hk
    | false =>
      simp only [deduplicateByTitleGo, hcon, Bool.false_eq_true, if_false,
        List.map_cons, List.mem_cons]
      rintro (he | hm)
      · subst he
        have : seen.contains (normalizeTitle item.title) = true := by
          simpa [List.elem_iff] using hk
        rw [this] at hcon
        cases hcon
      · exact ih (normalizeTitle item.title :: seen) k (by simp [hk]) hm

theorem deduplicateByTitleGo_nodup :
    ∀ (items : List NewsItem) (seen : List String),
    ((deduplicateByTitleGo seen items).map (fun it => normalizeTitle it.title)).Nodup := by
  intro items
  induction items with
  | nil => intro seen; simp [deduplicateByTitleGo]
  | cons item rest ih =>
    intro seen
    cases hcon : seen.contains (normalizeTitle item.title) with
    | true =>
      simp only [deduplicateByTitleGo, hcon, if_true]
      exact ih seen
    | false =>
      simp only [deduplicateByTitleGo, hcon, Bool.false_eq_true, if_false,
        List.map_cons, List.nodup_cons]
      exact ⟨deduplicateByTitleGo_avoid rest _ _ (by simp), ih _⟩

theorem processNews_take_pairwise (items : List NewsItem) (n : Nat) :
    List.Pairwise (fun a b => dateKey b ≤ dateKey a) ((processNews items).take n) :=
  List.Pairwise.sublist (List.take_sublist n _) (sortByDateDesc_pairwise _)

theorem processNews_take_nodup (items : List NewsItem) (n : Nat) :
    (((processNews items).take n).map (fun it => normalizeTitle it.title)).Nodup := by
  have hfull : ((processNews items).map (fun it => normalizeTitle it.title)).Nodup := by
    have hperm := (sortByDateDesc_perm (deduplicateByTitle items)).map
      (fun it => normalizeTitle it.title)
    exact hperm.nodup_iff.mpr (deduplicateByTitleGo_nodup items [])
  exact ((List.take_sublist n _).map _).nodup hfull

theorem processNews_take_subset (items : List NewsItem) (n : Nat) (x : NewsItem)
    (hx : x ∈ (processNews items).take n) : x ∈ items := by
  have h1 : x ∈ processNews items := (List.take_sublist n _).subset hx
  have h2 : x ∈ deduplicateByTitle items :=
    (sortByDateDesc_perm (deduplicateByTitle items)).mem_iff.mp h1
  exact deduplicateByTitleGo_subset items [] x h2

theorem processNews_take_length (items : List NewsItem) (n : Nat) :
    ((processNews items).take n).length = min n (deduplicateByTitle items).length := by
  rw [List.length_take]
  unfold processNews
  rw [(sortByDateDesc_perm (deduplicateByTitle items)).length_eq]

/-- Claim C7: each collector's news output is title-deduplicated
(first occurrence wins on the normalized title, so output titles are
pairwise distinct), sorted descending by published timestamp (missing
timestamps count as 0), drawn from the raw input, and truncated to the
category cap — 8 for geopolitical and crypto (the two outputs coincide),
`weekend ? 5 : 10` for the market category; with at least 8 distinct
titles the geopolitical output has exactly 8 items. -/
theorem claim_C7 (items : List NewsItem) (weekend : Bool) :
    List.Pairwise (fun a b => dateKey b ≤ dateKey a) (geoNewsOutput items)
    ∧ ((geoNewsOutput items).map (fun it => normalizeTitle it.title)).Nodup
    ∧ (∀ x, x ∈ geoNewsOutput items → x ∈ items)
    ∧ (geoNewsOutput items).length = min 8 (deduplicateByTitle items).length
    ∧ cryptoNewsOutput items = geoNewsOutput items
    ∧ List.Pairwise (fun a b => dateKey b ≤ dateKey a) (stockNewsOutput weekend items)
    ∧ ((stockNewsOutput weekend items).map (fun it => normalizeTitle it.title)).Nodup
    ∧ (∀ x, x ∈ stockNewsOutput weekend items → x ∈ items)
    ∧ (stockNewsOutput weekend items).length
        = min (if weekend then 5 else 10) (deduplicateByTitle items).length
    ∧ (8 ≤ (deduplicateByTitle items).length → (geoNewsOutput items).length = 8) := by
  refine ⟨processNews_take_pairwise items 8,
    processNews_take_nodup items 8,
    fun x hx => processNews_take_subset items 8 x hx,
    processNews_take_length items 8,
    rfl,
    processNews_take_pairwise items _,
    processNews_take_nodup items _,
    fun x hx => processNews_take_subset items _ x hx,
    processNews_take_length items _,
    ?_⟩
  intro h8
  unfold geoNewsOutput
  rw [processNews_take_length items 8]
  exact Nat.min_eq_left h8

/-- Claim C7, witness: 20 raw items with distinct titles and valid
timestamps produce exactly 8 geopolitical items. -/
theorem claim_C7_witness :
    8 ≤ (deduplicateByTitle wTwenty).length
    ∧ (geoNewsOutput wTwenty).length = 8 := by
  have h8 : 8 ≤ (deduplicateByTitle wTwenty).length := by decide
  exact ⟨h8, (claim_C7 wTwenty false).2.2.2.2.2.2.2.2.2 h8⟩
